import Mathlib

/-!
SeaHorn: path-based BMC engine interface and bit-vector memory representations.

A shallow embedding of

* `include/seahorn/PathBmc.hh`: the stub engine (built without Clam), the
  fields and inline members of the full engine, and a model of the path
  enumeration loop whose body lives in `PathBmc.cc`;
* `lib/seahorn/BvOpSem2MemRepr.cc`: the store-chain rewriter and the
  `MemSet` / `MemCpy` builders of the array and lambda representations.

Expressions are modelled as a first-order term type; structural equality of
terms plays the role of pointer equality of hash-consed `Expr` nodes.
-/

namespace Seahorn

/-! ## Expressions -/

/-- Expression DAG nodes used by the embedded code. `null` is the
default-constructed `Expr()` handle. -/
inductive Expr where
  | null : Expr
  | sym (name : String) : Expr
  | bvsort (width : Nat) : Expr
  | arraysort (idxTy valTy : Expr) : Expr
  | fdecl (name : Expr) (ty : Expr) : Expr
  | const (decl : Expr) : Expr
  | bvnum (val : Nat) (width : Nat) : Expr
  | bvar (idx : Nat) (ty : Expr) : Expr
  | store (arr idx val : Expr) : Expr
  | select (arr idx : Expr) : Expr
  | ite (c t e : Expr) : Expr
  | eq (a b : Expr) : Expr
  | and (a b : Expr) : Expr
  | bvadd (a b : Expr) : Expr
  | bvsub (a b : Expr) : Expr
  | bvule (a b : Expr) : Expr
  | bconcat (hi lo : Expr) : Expr
  | bextract (high low : Nat) (e : Expr) : Expr
  | lambda (decl body : Expr) : Expr
  | fapp (f arg : Expr) : Expr
  deriving DecidableEq, Repr, Inhabited

namespace Expr

/-- `isOp<STORE>(e)`. -/
def isStore : Expr → Bool
  | .store _ _ _ => true
  | _ => false

/-- `bind::mkConst(name, sort)`: a constant is the nullary application of its
declaration. -/
def mkConst (name ty : Expr) : Expr := .const (.fdecl name ty)

/-- `bind::fname(e)`: the declaration of an application. -/
def fname : Expr → Expr
  | .const d => d
  | .fapp f _ => f
  | _ => .null

end Expr

/-! ## `PathBmc.hh` -/

namespace PathBmc

/-- `solver::SolverResult`. -/
inductive SolverResult where
  | SAT
  | UNSAT
  | UNKNOWN
  deriving DecidableEq, Repr, Inhabited

abbrev CutPoint := Nat
abbrev CpEdge := Nat
abbrev SymStore := Nat

/-! ### The stub engine (`#ifndef HAVE_CLAM`) -/

/-- The data members of the dummy `PathBmcEngine` (`m_sem` is a reference to
the semantics object and carries no engine state). -/
structure DummyEngine where
  m_cps : List CutPoint
  m_cp_edges : List CpEdge
  m_states : List SymStore
  m_side : List Expr
  deriving DecidableEq, Repr

namespace DummyEngine

/-- The constructor initialises `m_sem` only; the containers start empty. -/
def new : DummyEngine := ⟨[], [], [], []⟩

/-- `void addCutPoint(const CutPoint &cp) {}`. -/
def addCutPoint (e : DummyEngine) (_cp : CutPoint) : DummyEngine := e

/-- `void encode() {}`. -/
def encode (e : DummyEngine) : DummyEngine := e

/-- `solver::SolverResult result() { return solver::SolverResult::UNKNOWN; }`:
the returned verdict and the engine afterwards. -/
def result (e : DummyEngine) : SolverResult × DummyEngine := (.UNKNOWN, e)

end DummyEngine

/-- The calls a client can make on the stub besides `solve`/`getTrace`. -/
inductive DummyCall where
  | addCutPoint (cp : CutPoint)
  | encode
  | result
  deriving DecidableEq, Repr

/-- Perform one call: the engine afterwards and the verdict when the call is
`result()`. -/
def DummyEngine.call (e : DummyEngine) : DummyCall → DummyEngine × Option SolverResult
  | .addCutPoint cp => (e.addCutPoint cp, none)
  | .encode => (e.encode, none)
  | .result => ((e.result).2, some (e.result).1)

/-- Perform a sequence of calls, collecting every verdict `result()` returned. -/
def DummyEngine.run : DummyEngine → List DummyCall → DummyEngine × List SolverResult
  | e, [] => (e, [])
  | e, c :: cs =>
    let r := e.call c
    let rest := DummyEngine.run r.1 cs
    (rest.1, r.2.toList ++ rest.2)

/-! ### The full engine (`HAVE_CLAM`) -/

/-- Selector atom of the Boolean abstraction: one per edge. -/
abbrev Selector := Nat

/-- A candidate path, given by the selectors it sets. -/
abbrev Path := List Selector

/-- A conjunction of selector literals (the content of `m_gen_path`); its
negation is what the Boolean abstraction receives. -/
abbrev Clause := List Selector

/-- A path matches a conjunction of selectors when it sets all of them. -/
def matchesClause (p : Path) (c : Clause) : Bool := c.all (fun s => decide (s ∈ p))

/-- Modelled from the spec: the incremental propositional solver behind
`m_boolean_solver` (its class is not part of the header). It is seeded with
the structural constraints of the skeleton, given here by the list of paths
they admit, and accumulates the blocked conjunctions. -/
structure BoolSolver where
  skeleton : List Path
  blocked : List Clause
  deriving DecidableEq, Repr

namespace BoolSolver

/-- Is the path excluded by one of the accumulated blocking clauses. -/
def excludes (b : BoolSolver) (p : Path) : Bool := b.blocked.any (fun c => matchesClause p c)

/-- The paths satisfying the Boolean abstraction. -/
def models (b : BoolSolver) : List Path := b.skeleton.filter (fun p => !b.excludes p)

/-- Modelled from the spec: `nextPath()` of section 4.1, one satisfiability
check that yields a candidate path or signals exhaustion. -/
def check (b : BoolSolver) : Option Path := b.models.head?

/-- Assert the negation of a conjunction. -/
def add (b : BoolSolver) (c : Clause) : BoolSolver := { b with blocked := c :: b.blocked }

end BoolSolver

/-- The data members of the full `PathBmcEngine` that take part in path
enumeration (references to the semantics, Crab and LLVM objects are left out). -/
structure Engine where
  m_cps : List CutPoint
  m_states : List SymStore
  m_edges : List CpEdge
  m_precise_side : List Expr
  m_boolean_solver : BoolSolver
  m_model : Option Nat
  m_result : SolverResult
  m_gen_path : Clause
  m_blocking_clauses : List Clause
  m_unsolved_path_formulas : List (Nat × Path)
  m_num_paths : Nat
  deriving DecidableEq, Repr

/-- Modelled from the spec: the verdict of the feasibility oracle of section
4.2 (`solvePathWithCrab` / `solvePathWithSmt`, whose bodies are in
`PathBmc.cc`): feasible with a model, infeasible with a witness given as the
implicated selectors, or indeterminate. -/
inductive Verdict where
  | Feasible (model : Nat)
  | Infeasible (witness : List Selector)
  | Indeterminate
  deriving DecidableEq, Repr

namespace Engine

/-- Modelled from the spec: the engine right after construction over a
skeleton: nothing blocked, nothing recorded, nothing deferred. -/
def init (skeleton : List Path) : Engine :=
  { m_cps := [], m_states := [], m_edges := [], m_precise_side := [],
    m_boolean_solver := ⟨skeleton, []⟩, m_model := none, m_result := .UNKNOWN,
    m_gen_path := [], m_blocking_clauses := [], m_unsolved_path_formulas := [],
    m_num_paths := 0 }

/-- `solver::SolverResult result() { return m_result; }`: the returned verdict
and the engine afterwards. -/
def result (e : Engine) : SolverResult × Engine := (e.m_result, e)

/-- `getCps()`. -/
def getCps (e : Engine) : List CutPoint := e.m_cps

/-- `getEdges()`. -/
def getEdges (e : Engine) : List CpEdge := e.m_edges

/-- `getStates()`. -/
def getStates (e : Engine) : List SymStore := e.m_states

/-- `getFormula()`. -/
def getFormula (e : Engine) : List Expr := e.m_precise_side

/-- Modelled from the spec: `solveBoolAbstraction()` (body in `PathBmc.cc`).
The header documents it as checking the Boolean abstraction kept in
`m_boolean_solver` and storing the result in `m_result`. -/
def solveBoolAbstraction (e : Engine) : Engine :=
  { e with m_result := if e.m_boolean_solver.check.isSome then .SAT else .UNSAT }

/-- Modelled from the spec: `generalize(path, witness)` of section 4.3: each
implicated edge of the path is mapped to its selector and the blocking
clause is the negation of the conjunction of the implicated selectors. The
clause generalizes the checked path (sections 2 and 3): it is a
sub-conjunction of the path's own selectors, so what the witness names
outside the path does not enter it. -/
def generalize (path : Path) (witness : List Selector) : Clause :=
  witness.filter (fun s => decide (s ∈ path))

/-- Modelled from the spec: `refineBoolAbstraction()` (body in `PathBmc.cc`).
The generalized path in `m_gen_path` is blocked in the Boolean abstraction
and recorded in the de-duplicating collection `m_blocking_clauses`; a clause
that is already recorded is never re-added and the call reports the error by
returning `false`. -/
def refineBoolAbstraction (e : Engine) : Bool × Engine :=
  if e.m_gen_path ∈ e.m_blocking_clauses then (false, e)
  else (true, { e with m_boolean_solver := e.m_boolean_solver.add e.m_gen_path,
                       m_blocking_clauses := e.m_gen_path :: e.m_blocking_clauses })

end Engine

/-- How a run of `solve()` ends: it returns (the verdict is `m_result`), or
it is terminated on an internal consistency violation. -/
inductive Outcome where
  | verdict (e : Engine)
  | aborted (e : Engine)
  deriving DecidableEq, Repr

/-- The engine state at the end of a run. -/
def Outcome.state : Outcome → Engine
  | .verdict e => e
  | .aborted e => e

/-- One pass through the loop body either goes round again or ends the run. -/
inductive Step where
  | again (e : Engine)
  | stop (o : Outcome)
  deriving DecidableEq, Repr

/-- Modelled from the spec: refine with the clause in `m_gen_path` and go
round again; a re-derived clause terminates the run (section 7). -/
def refineAndContinue (e : Engine) : Step :=
  match e.refineBoolAbstraction with
  | (true, e') => .again e'
  | (false, e') => .stop (.aborted e')

/-- Modelled from the spec: one iteration of the loop of `solve()` (body in
`PathBmc.cc`), following sections 2 and 4.6; the optional retry of deferred
paths, which the spec leaves open, is not part of it. The Boolean
abstraction yields the next candidate path or reports exhaustion; on
exhaustion the verdict is Unsat when the deferred queue is empty and is
downgraded to Unknown otherwise. A feasible path ends the run with Sat; an
infeasible one is generalized and blocked; an indeterminate one is queued
and blocked weakly (the literal path). -/
def iteration (oracle : Path → Verdict) (e : Engine) : Step :=
  let e1 := e.solveBoolAbstraction
  match e1.m_boolean_solver.check with
  | none =>
    if e1.m_unsolved_path_formulas.isEmpty then .stop (.verdict e1)
    else .stop (.verdict { e1 with m_result := .UNKNOWN })
  | some p =>
    let e2 := { e1 with m_num_paths := e1.m_num_paths + 1 }
    match oracle p with
    | .Feasible m => .stop (.verdict { e2 with m_model := some m, m_result := .SAT })
    | .Infeasible w => refineAndContinue { e2 with m_gen_path := Engine.generalize p w }
    | .Indeterminate =>
      refineAndContinue
        { e2 with m_unsolved_path_formulas := e2.m_unsolved_path_formulas ++ [(e2.m_num_paths, p)],
                  m_gen_path := p }

/-- Modelled from the spec: the loop of `solve()` (body in `PathBmc.cc`), run
for at most `fuel` iterations; `none` when the fuel runs out. -/
def solveLoop (oracle : Path → Verdict) : Nat → Engine → Option Outcome
  | 0, _ => none
  | fuel + 1, e =>
    match iteration oracle e with
    | .again e' => solveLoop oracle fuel e'
    | .stop o => some o

/-- Modelled from the spec: `solve()`. Every iteration that goes round again
either removes a path from the Boolean abstraction or is followed by the
last iteration, so one iteration per skeleton path plus one is enough. -/
def solve (oracle : Path → Verdict) (e : Engine) : Option Outcome :=
  solveLoop oracle (e.m_boolean_solver.skeleton.length + 1) e

/-- The engine after `n` passes through the loop body (a run that has ended
stays where it ended). -/
def stateAfter (oracle : Path → Verdict) : Nat → Engine → Engine
  | 0, e => e
  | n + 1, e =>
    match iteration oracle e with
    | .again e' => stateAfter oracle n e'
    | .stop o => o.state

/-- The recorded clauses are pairwise distinct and each of them is blocked
in the Boolean abstraction. -/
def Recorded (e : Engine) : Prop :=
  e.m_blocking_clauses.Nodup ∧ ∀ c ∈ e.m_blocking_clauses, c ∈ e.m_boolean_solver.blocked

/-! ### A worked run

Three paths; the first is refuted with a witness that also covers the
second, the third cannot be decided. -/

end PathBmc

/-! ## `BvOpSem2MemRepr.cc` -/

namespace MemRepr

/-- The operations of `OpSemAlu` the file calls. The class is declared
outside the embedded sources, so its operations are parameters. A
`{expr, width}` operand is a pair. -/
structure OpSemAlu where
  doEq : Expr → Expr → Nat → Expr
  doAdd : Expr → Expr → Nat → Expr
  doUle : Expr → Expr → Nat → Expr
  si : Int → Nat → Expr
  ui : Nat → Nat → Expr
  num : Nat → Nat → Expr
  isNum : Expr → Option Nat
  Concat : Expr × Nat → Expr × Nat → Expr
  Extract : Expr × Nat → Nat → Nat → Expr

/-- The operations of the memory manager (`m_memManager`) the file calls;
declared outside the embedded sources, hence parameters. `ptrAdd` is the
overload with a machine-integer offset, `ptrAddE` the one with an expression
offset. -/
structure MemManager where
  ptrAdd : Expr → Int → Expr
  ptrAddE : Expr → Expr → Expr
  ptrEq : Expr → Expr → Expr
  ptrInRangeCheck : Expr → Expr → Expr → Expr
  ptrOffsetFromBase : Expr → Expr → Expr
  isIgnoreAlignment : Bool
  ptrSizeInBits : Nat

/-- What a memory representation object reaches that is declared outside
the embedded sources, taken as parameters: `boolop::lite` (the if-then-else
builder of the expression library), `m_ctx.alu()`, `m_memManager`, and the
members `m_memCpyUnrollCnt` and `m_BitsPerByte`. -/
structure Ctx where
  lite : Expr → Expr → Expr → Expr
  alu : OpSemAlu
  mm : MemManager
  m_memCpyUnrollCnt : Nat
  m_BitsPerByte : Nat

/-- `sizeof(unsigned long)`. -/
def sizeofUnsignedLong : Nat := 8

/-- Arithmetic on `unsigned` wraps modulo this. -/
def unsignedMod : Nat := 2 ^ 32

/-! ### `ArrayStoreRewriter` and `arrayStoreRewrite` -/

/-- The members of `ArrayStoreRewriter`, with the if-then-else builder its
`operator()` calls. -/
structure ArrayStoreRewriter where
  lite : Expr → Expr → Expr → Expr
  m_ptr : Expr
  m_alu : OpSemAlu
  m_ptrSz : Nat

namespace ArrayStoreRewriter

/-- `doPtrEq`. -/
def doPtrEq (rw : ArrayStoreRewriter) (p1 p2 : Expr) : Expr := rw.m_alu.doEq p1 p2 rw.m_ptrSz

/-- `operator()`: a store becomes an if-then-else over its (already
rewritten) array argument, anything else is read at `m_ptr`. -/
def apply (rw : ArrayStoreRewriter) (e : Expr) : Expr :=
  match e with
  | .store arr idx val => rw.lite (rw.doPtrEq rw.m_ptr idx) val arr
  | e => .select e rw.m_ptr

end ArrayStoreRewriter

/-- `DagVisitMemCache`: a map from expression nodes to `ExprPair`s, kept as
an association list in which the first entry of a key is the live one. -/
abbrev DagVisitMemCache := List (Expr × (Expr × Expr))

/-- `cache.find(&*top)`. -/
def cacheFind (cache : DagVisitMemCache) (k : Expr) : Option (Expr × Expr) :=
  (cache.find? (fun kv => kv.1 = k)).map (fun kv => kv.2)

/-- `cache[&*top] = v`. -/
def cacheSet (cache : DagVisitMemCache) (k : Expr) (v : Expr × Expr) : DagVisitMemCache :=
  (k, v) :: cache

/-- The first loop of `arrayStoreRewrite`: the stack holds `mem` and then
the array argument of every store below it; the last element is the top. -/
def buildWorklist : Expr → List Expr
  | .store arr idx val => .store arr idx val :: buildWorklist arr
  | e => [e]

/-- The `mkNary` calls of the second loop: a store is rebuilt over the
rewritten array argument `res`, any other node is rebuilt from its own
arguments. -/
def rebuildTop (top res : Expr) : Expr :=
  match top with
  | .store _ idx val => .store res idx val
  | e => e

/-- One pass through the body of the second loop, for the popped `top`,
carrying `res` and the cache. -/
def rewriteTop (rewriter : Expr → Expr) (ptr top : Expr) (st : Expr × DagVisitMemCache) :
    Expr × DagVisitMemCache :=
  let miss : Expr × DagVisitMemCache :=
    let rw := rewriter (rebuildTop top st.1)
    (rw, cacheSet st.2 top (ptr, rw))
  match cacheFind st.2 top with
  | some cached => if ptr = cached.1 then (cached.2, st.2) else miss
  | none => miss

/-- `arrayStoreRewrite(rewriter, ptr, mem, cache)`: the result and the cache
afterwards. The stack is popped from its back, so the fold runs from the
right; `res` starts as the null expression. -/
def arrayStoreRewrite (rewriter : Expr → Expr) (ptr mem : Expr) (cache : DagVisitMemCache) :
    Expr × DagVisitMemCache :=
  (buildWorklist mem).foldr (rewriteTop rewriter ptr) (.null, cache)

/-- The rewriting of `loadAlignedWordFromMem`: an `ArrayStoreRewriter` for
the pointer, run over the memory with the cache. -/
def rewriteLoad (ctx : Ctx) (ptr mem : Expr) (cache : DagVisitMemCache) :
    Expr × DagVisitMemCache :=
  arrayStoreRewrite (ArrayStoreRewriter.apply ⟨ctx.lite, ptr, ctx.alu, ctx.mm.ptrSizeInBits⟩)
    ptr mem cache

/-- The rewriting written as a recursion over the memory expression: the
rewriter applied bottom-up along the array arguments of the stores. -/
def rewriteSpec (rewriter : Expr → Expr) : Expr → Expr
  | .store arr idx val => rewriter (.store (rewriteSpec rewriter arr) idx val)
  | e => rewriter e

/-- A cache is coherent for a pointer when every entry recorded for that
pointer holds the rewriting of its key. -/
def Coherent (rewriter : Expr → Expr) (ptr : Expr) (cache : DagVisitMemCache) : Prop :=
  ∀ k v, cacheFind cache k = some v → ptr = v.1 → v.2 = rewriteSpec rewriter k

/-- A chain of stores `store(...store(B, idx_1, val_1)..., idx_n, val_n)`,
the writes listed first to last. -/
def storeChain (B : Expr) (ws : List (Expr × Expr)) : Expr :=
  ws.foldl (fun a w => .store a w.1 w.2) B

/-- The expected rewriting of a chain:
`ite(ptr = idx_n, val_n, ... ite(ptr = idx_1, val_1, select(B, ptr))...)`,
with the if-then-else and the pointer equality built as the code builds them. -/
def iteChain (ctx : Ctx) (ptr B : Expr) (ws : List (Expr × Expr)) : Expr :=
  ws.foldl (fun r w => ctx.lite (ctx.alu.doEq ptr w.1 ctx.mm.ptrSizeInBits) w.2 r) (.select B ptr)

/-! ### Interpretation of expressions -/

/-- Width in bits of a bit-vector term whose symbols are `leaf` bits wide. -/
def bitWidth (leaf : Nat) : Expr → Nat
  | .bvnum _ w => w
  | .bconcat hi lo => bitWidth leaf hi + bitWidth leaf lo
  | .bextract high low _ => high + 1 - low
  | _ => leaf

/-- An interpretation: values of the bit-vector symbols, contents of the
array symbols, the value of the bound variable with index `0`, and the
width in bits at which pointer arithmetic wraps around. -/
structure Env where
  reg : String → Nat
  arr : String → Nat → Nat
  b0 : Nat
  ptrBits : Nat

mutual
/-- Value of a bit-vector expression. A symbol and the constant declared
with that symbol as its name have the same value; addition and subtraction
wrap at the pointer width; in a concatenation the width of the low part is
read off its syntax (numerals, extracts and concatenations of these carry
their width, any other operand counts as `0` bits wide). -/
def evalBv : Expr → Env → Nat
  | .sym x, ρ => ρ.reg x
  | .const (.fdecl (.sym x) _), ρ => ρ.reg x
  | .bvnum v _, _ => v
  | .bvar 0 _, ρ => ρ.b0
  | .select a i, ρ => evalArr a ρ (evalBv i ρ)
  | .ite c t e, ρ => if evalBool c ρ then evalBv t ρ else evalBv e ρ
  | .fapp f x, ρ => evalArr f ρ (evalBv x ρ)
  | .bvadd a b, ρ => (evalBv a ρ + evalBv b ρ) % 2 ^ ρ.ptrBits
  | .bvsub a b, ρ => (evalBv a ρ + (2 ^ ρ.ptrBits - evalBv b ρ % 2 ^ ρ.ptrBits)) % 2 ^ ρ.ptrBits
  | .bextract high low e, ρ => evalBv e ρ / 2 ^ low % 2 ^ (high + 1 - low)
  | .bconcat hi lo, ρ => evalBv hi ρ * 2 ^ bitWidth 0 lo + evalBv lo ρ
  | _, _ => 0
/-- Value of an array (or lambda) expression: a map from indices to values. -/
def evalArr : Expr → Env → Nat → Nat
  | .sym x, ρ => ρ.arr x
  | .const (.fdecl (.sym x) _), ρ => ρ.arr x
  | .store a i v, ρ => Function.update (evalArr a ρ) (evalBv i ρ) (evalBv v ρ)
  | .ite c t e, ρ => if evalBool c ρ then evalArr t ρ else evalArr e ρ
  | .lambda _ body, ρ => fun a => evalBv body { ρ with b0 := a }
  | _, _ => fun _ => 0
/-- Value of a Boolean expression. -/
def evalBool : Expr → Env → Bool
  | .eq a b, ρ => evalBv a ρ == evalBv b ρ
  | .and a b, ρ => evalBool a ρ && evalBool b ρ
  | .bvule a b, ρ => decide (evalBv a ρ ≤ evalBv b ρ)
  | _, _ => false
end

/-- The if-then-else builder and the pointer equality of a context mean what
their names say. -/
def IteEqSound (ctx : Ctx) : Prop :=
  (∀ c t e ρ, evalBv (ctx.lite c t e) ρ = if evalBool c ρ = true then evalBv t ρ else evalBv e ρ) ∧
  (∀ a b sz ρ, evalBool (ctx.alu.doEq a b sz) ρ = (evalBv a ρ == evalBv b ρ))

/-! ### Word loops and fill words -/

/-- The loop `for (unsigned i = 0; i < len; i += step) res = body(i, res)`,
entered with the given `i` and `res`. `none` when the fuel runs out. -/
def wordLoop (step len : Nat) (body : Nat → Expr → Expr) : Nat → Nat → Expr → Option Expr
  | 0, _, _ => none
  | fuel + 1, i, res =>
    if i < len then wordLoop step len body fuel ((i + step) % unsignedMod) (body i res)
    else some res

/-- The word loop from `i = 0`. The values of `i` in a terminating run are
pairwise distinct and below `len`, so `len + 1` tests are enough; `none`
stands for a loop that never ends (`step = 0`, or `i` wrapping around). -/
def forWords (step len : Nat) (body : Nat → Expr → Expr) (res : Expr) : Option Expr :=
  wordLoop step len body (len + 1) 0 res

/-- `bv::toMpz(e).get_ui()` on a numeral. -/
def toMpz : Expr → Nat
  | .bvnum v _ => v
  | _ => 0

/-- `unsigned long val = 0; memset(&val, byte, n);` on a little-endian
machine: the low `n` bytes of `val` are each `(unsigned char) byte`. -/
def memsetWord (byte n : Nat) : Nat :=
  (List.range n).foldl (fun acc k => acc + (byte % 256) * 256 ^ k) 0

/-- The loop
`for (unsigned i = 1; i < wordSzInBytes; ++i)
   bvVal = Concat({bvVal, 8}, {bvVal, 8 * i});`
entered with the given `i` and `bvVal`, for `n` more iterations. -/
def concatLoop (alu : OpSemAlu) : Nat → Nat → Expr → Expr
  | 0, _, bvVal => bvVal
  | n + 1, i, bvVal => concatLoop alu n (i + 1) (alu.Concat (bvVal, 8) (bvVal, 8 * i))

/-- The `else` branch shared by the three `MemSet` variants that accept a
symbolic value: `bvVal = _val;` followed by the `Concat` loop. -/
def extendValToWord (alu : OpSemAlu) (_val : Expr) (wordSzInBytes : Nat) : Expr :=
  concatLoop alu (wordSzInBytes - 1) 1 _val

/-- The lambda binder of the lambda representation:
`mk<LAMBDA>(bind::fname(bind::mkConst(mkTerm("addr"), ptrSort)), body)`. -/
def mkAddrLambda (ptrSort body : Expr) : Expr :=
  .lambda (Expr.fname (Expr.mkConst (.sym "addr") ptrSort)) body

/-! ### `OpSemMemArrayReprBase` -/

/-- `OpSemMemArrayReprBase::MemSet` with a concrete length. `none` stands
for a failed `assert` or a loop that never ends; a value that is not an
8-bit numeral gives the null expression. -/
def arrayMemSet (ctx : Ctx) (ptr _val : Expr) (len : Nat) (mem : Expr) (wordSzInBytes : Nat)
    (_ptrSort : Expr) (_align : Nat) : Option Expr :=
  match _val with
  | .bvnum v width =>
    if width = 8 then
      if wordSzInBytes ≤ sizeofUnsignedLong then
        let val := memsetWord v wordSzInBytes
        forWords wordSzInBytes len
          (fun i res => .store res (ctx.mm.ptrAdd ptr i)
            (.bvnum val (wordSzInBytes * ctx.m_BitsPerByte)))
          mem
      else none
    else some .null
  | _ => some .null

/-- The fill word of `OpSemMemArrayReprBase::MemSet` with a symbolic length
(`bvVal`); `none` for a failed `assert`. -/
def arrayMemSetSymFill (ctx : Ctx) (_val : Expr) (wordSzInBytes : Nat) : Option Expr :=
  match _val with
  | .bvnum v width =>
    if width = 8 ∧ wordSzInBytes ≤ sizeofUnsignedLong then
      some (.bvnum (memsetWord v wordSzInBytes) (wordSzInBytes * ctx.m_BitsPerByte))
    else none
  | e => some (extendValToWord ctx.alu e wordSzInBytes)

/-- `OpSemMemArrayReprBase::MemSet` with a symbolic length. -/
def arrayMemSetSym (ctx : Ctx) (ptr _val len mem : Expr) (wordSzInBytes : Nat)
    (_ptrSort : Expr) (_align : Nat) : Option Expr :=
  match arrayMemSetSymFill ctx _val wordSzInBytes with
  | none => none
  | some bvVal =>
    let bitWidth := ctx.mm.ptrSizeInBits
    let upperBound := ctx.alu.doAdd len (ctx.alu.si (-(wordSzInBytes : Int)) bitWidth) bitWidth
    forWords wordSzInBytes ctx.m_memCpyUnrollCnt
      (fun i res =>
        let idx := ctx.mm.ptrAdd ptr i
        let cmp := ctx.alu.doUle (ctx.alu.ui i ctx.mm.ptrSizeInBits) upperBound
          ctx.mm.ptrSizeInBits
        .store res idx (ctx.lite cmp bvVal (.select mem idx)))
      mem

/-- `OpSemMemArrayReprBase::MemCpy` with a concrete length: one store per
word, each value read from the source memory `memTrsfrRead`. `none` stands
for the failed `assert(false)` of the `else` branch or a loop that never
ends. The size/alignment test is the one of `memCpyGuard`. -/
def arrayMemCpy (ctx : Ctx) (dPtr sPtr : Expr) (len : Nat) (memTrsfrRead memRead : Expr)
    (wordSzInBytes : Nat) (_ptrSort : Expr) (align : Nat) : Option Expr :=
  if wordSzInBytes == 1 || (wordSzInBytes == 4 && align % 4 == 0) ||
      (wordSzInBytes == 8 && align % 4 == 0) || ctx.mm.isIgnoreAlignment then
    let srcMem := memTrsfrRead
    forWords wordSzInBytes len
      (fun i res =>
        let dIdx := ctx.mm.ptrAdd dPtr i
        let sIdx := ctx.mm.ptrAdd sPtr i
        let val := Expr.select srcMem sIdx
        .store res dIdx val)
      memRead
  else none

/-! ### `OpSemMemLambdaRepr` -/

/-- The fill word of `OpSemMemLambdaRepr::MemSet` with a concrete length
(`bvVal`); `none` for a failed `assert`. -/
def lambdaMemSetFill (ctx : Ctx) (_val : Expr) (wordSzInBytes : Nat) : Option Expr :=
  match ctx.alu.isNum _val with
  | some width =>
    if width = 8 ∧ wordSzInBytes ≤ sizeofUnsignedLong then
      some (.bvnum (memsetWord (toMpz _val) wordSzInBytes) (wordSzInBytes * ctx.m_BitsPerByte))
    else none
  | none => some (extendValToWord ctx.alu _val wordSzInBytes)

/-- `OpSemMemLambdaRepr::MemSet` with a concrete length. `len - wordSzInBytes`
is computed on `unsigned`. -/
def lambdaMemSet (ctx : Ctx) (ptr _val : Expr) (len : Nat) (mem : Expr) (wordSzInBytes : Nat)
    (ptrSort : Expr) (_align : Nat) : Option Expr :=
  match lambdaMemSetFill ctx _val wordSzInBytes with
  | none => none
  | some bvVal =>
    if bvVal = .null then none
    else
      let last := ctx.mm.ptrAdd ptr
        (((len + unsignedMod - wordSzInBytes % unsignedMod) % unsignedMod : Nat) : Int)
      let b0 := Expr.bvar 0 ptrSort
      let cmp := ctx.mm.ptrInRangeCheck ptr b0 last
      let fappl := Expr.fapp mem b0
      some (mkAddrLambda ptrSort (ctx.lite cmp bvVal fappl))

/-- The fill word of `OpSemMemLambdaRepr::MemSet` with a symbolic length
(`val`); `none` for a failed `assert`. -/
def lambdaMemSetSymFill (ctx : Ctx) (_val : Expr) (wordSzInBytes : Nat) : Option Expr :=
  match _val with
  | .bvnum v width =>
    if width = 8 ∧ wordSzInBytes ≤ sizeofUnsignedLong then
      some (ctx.alu.num (if v ≠ 0 then memsetWord v wordSzInBytes else 0) (wordSzInBytes * 8))
    else none
  | e => some (extendValToWord ctx.alu e wordSzInBytes)

/-- `OpSemMemLambdaRepr::MemSet` with a symbolic length. -/
def lambdaMemSetSym (ctx : Ctx) (ptr _val len mem : Expr) (wordSzInBytes : Nat)
    (ptrSort : Expr) (_align : Nat) : Option Expr :=
  match lambdaMemSetSymFill ctx _val wordSzInBytes with
  | none => none
  | some val =>
    if val = .null then none
    else
      let last := ctx.mm.ptrAdd (ctx.mm.ptrAddE ptr len) (-(wordSzInBytes : Int))
      let b0 := Expr.bvar 0 ptrSort
      let cmp := ctx.mm.ptrInRangeCheck ptr b0 last
      let fappl := Expr.fapp mem b0
      some (mkAddrLambda ptrSort (ctx.lite cmp val fappl))

/-- The size/alignment guard of the `MemCpy` variants. -/
def memCpyGuard (ctx : Ctx) (wordSzInBytes align : Nat) : Bool :=
  wordSzInBytes == 1 || (wordSzInBytes == 4 && align % 4 == 0) ||
    (wordSzInBytes == 8 && align % 4 == 0) || ctx.mm.isIgnoreAlignment

/-- `OpSemMemLambdaRepr::createMemCpyExpr`. -/
def createMemCpyExpr (ctx : Ctx) (dPtr sPtr memRead ptrSort srcMem dstLast : Expr)
    (wordSzInBytes align : Nat) : Expr :=
  if memCpyGuard ctx wordSzInBytes align then
    let b0 := Expr.bvar 0 ptrSort
    let cmp := ctx.mm.ptrInRangeCheck dPtr b0 dstLast
    let offset := ctx.mm.ptrOffsetFromBase dPtr sPtr
    let readPtrInSrc := ctx.mm.ptrAddE b0 offset
    let readFromSrc := Expr.fapp srcMem readPtrInSrc
    let readFromDst := Expr.fapp memRead b0
    mkAddrLambda ptrSort (ctx.lite cmp readFromSrc readFromDst)
  else memRead

/-- `OpSemMemLambdaRepr::MemCpy` with a symbolic length. -/
def lambdaMemCpySym (ctx : Ctx) (dPtr sPtr len memTrsfrRead memRead : Expr)
    (wordSzInBytes : Nat) (ptrSort : Expr) (align : Nat) : Expr :=
  let srcMem := memTrsfrRead
  let dstLast := ctx.mm.ptrAdd (ctx.mm.ptrAddE dPtr len) (-(wordSzInBytes : Int))
  createMemCpyExpr ctx dPtr sPtr memRead ptrSort srcMem dstLast wordSzInBytes align

/-- `lastAlignedBytePosToCopy` and `remainderBytes` of the concrete-length
`MemCpy`, computed on `unsigned`. -/
def lastAlignedAndRemainder (ctx : Ctx) (len wordSzInBytes : Nat) : Nat × Nat :=
  if ctx.mm.isIgnoreAlignment then ((len + unsignedMod - 1) % unsignedMod, 0)
  else
    let wordsToCopy := len / wordSzInBytes
    (((wordsToCopy + unsignedMod - 1) % unsignedMod * wordSzInBytes) % unsignedMod,
      len % wordSzInBytes)

/-- `OpSemMemLambdaRepr::MemCpy` with a concrete length. -/
def lambdaMemCpy (ctx : Ctx) (dPtr sPtr : Expr) (len : Nat) (memTrsfrRead memRead : Expr)
    (wordSzInBytes : Nat) (ptrSort : Expr) (align : Nat) : Expr :=
  if memCpyGuard ctx wordSzInBytes align then
    let srcMem := memTrsfrRead
    if len > 0 then
      let lastAlignedBytePosToCopy := (lastAlignedAndRemainder ctx len wordSzInBytes).1
      let remainderBytes := (lastAlignedAndRemainder ctx len wordSzInBytes).2
      let dstLast := ctx.mm.ptrAdd dPtr (lastAlignedBytePosToCopy : Int)
      let b0 := Expr.bvar 0 ptrSort
      let cmp := ctx.mm.ptrInRangeCheck dPtr b0 dstLast
      let offset := ctx.mm.ptrOffsetFromBase dPtr sPtr
      let readPtrInSrc := ctx.mm.ptrAddE b0 offset
      let readFromSrc := Expr.fapp srcMem readPtrInSrc
      let readFromDst := Expr.fapp memRead b0
      let body :=
        if remainderBytes ≠ 0 then
          let lastWordAddr := ctx.mm.ptrAdd dPtr
            (((lastAlignedBytePosToCopy + wordSzInBytes) % unsignedMod : Nat) : Int)
          let isLastWordCmp := ctx.mm.ptrEq b0 lastWordAddr
          let lastWordValDst := Expr.fapp memRead b0
          let lastWordValSrc := Expr.fapp srcMem readPtrInSrc
          let wordSzInBits := (wordSzInBytes * 8) % unsignedMod
          let remainderBits := (remainderBytes * 8) % unsignedMod
          let srcChunk := ctx.alu.Extract (lastWordValSrc, wordSzInBits) 0
            ((remainderBits + unsignedMod - 1) % unsignedMod)
          let dstChunk := ctx.alu.Extract (lastWordValDst, wordSzInBits) remainderBits
            ((wordSzInBits + unsignedMod - 1) % unsignedMod)
          let lastWordVal := ctx.alu.Concat
            (dstChunk, (wordSzInBits + unsignedMod - remainderBits) % unsignedMod)
            (srcChunk, remainderBits)
          ctx.lite cmp readFromSrc (ctx.lite isLastWordCmp lastWordVal readFromDst)
        else ctx.lite cmp readFromSrc readFromDst
      mkAddrLambda ptrSort body
    else memRead
  else memRead

/-- `bind::isArrayConst(e)`: a constant whose declaration has an array sort. -/
def isArrayConst : Expr → Bool
  | .const (.fdecl _ (.arraysort _ _)) => true
  | _ => false

/-- `bind::rangeTy(decl)`: the sort a declaration ranges over. -/
def rangeTy : Expr → Expr
  | .fdecl _ ty => ty
  | _ => .null

/-- `sort::arrayIndexTy(ty)`. -/
def arrayIndexTy : Expr → Expr
  | .arraysort idxTy _ => idxTy
  | _ => .null

/-- Replace every occurrence of the constant `c` in a term by `b`.
Declarations and sorts are not terms and are not entered, nor are binders
(none occurs in the bodies abstracted here). -/
def replaceConst (c b : Expr) : Expr → Expr
  | .const d => if Expr.const d = c then b else .const d
  | .store arr idx val => .store (replaceConst c b arr) (replaceConst c b idx) (replaceConst c b val)
  | .select arr idx => .select (replaceConst c b arr) (replaceConst c b idx)
  | .ite g t e => .ite (replaceConst c b g) (replaceConst c b t) (replaceConst c b e)
  | .eq x y => .eq (replaceConst c b x) (replaceConst c b y)
  | .and x y => .and (replaceConst c b x) (replaceConst c b y)
  | .bvadd x y => .bvadd (replaceConst c b x) (replaceConst c b y)
  | .bvsub x y => .bvsub (replaceConst c b x) (replaceConst c b y)
  | .bvule x y => .bvule (replaceConst c b x) (replaceConst c b y)
  | .bconcat x y => .bconcat (replaceConst c b x) (replaceConst c b y)
  | .bextract high low e => .bextract high low (replaceConst c b e)
  | .fapp f x => .fapp (replaceConst c b f) (replaceConst c b x)
  | e => e

/-- Modelled from the spec: `bind::abs<LAMBDA>` for one constant. The helper
belongs to the expression library and is not part of the embedded sources;
following the comment at its call site (`lambda sel : arrVal[sel]`), the
constant is replaced in the body by the bound variable with index `0` of the
constant's sort, and the lambda binds the constant's declaration. -/
def absLambda (c body : Expr) : Expr :=
  .lambda (Expr.fname c) (replaceConst c (.bvar 0 (rangeTy (Expr.fname c))) body)

/-- `OpSemMemLambdaRepr::coerceArrayToLambda`; `none` for the failed
`assert(bind::isArrayConst(arrVal))`. -/
def coerceArrayToLambda (arrVal : Expr) : Option Expr :=
  if isArrayConst arrVal then
    let name := Expr.fname arrVal
    let rTy := rangeTy name
    let idxTy := arrayIndexTy rTy
    let bvAddr := Expr.mkConst (.sym "addr") idxTy
    let sel := Expr.select arrVal bvAddr
    some (absLambda bvAddr sel)
  else none

/-! ### Meaning of the parameters -/

/-- Pointer plus a machine-integer offset, wrapping at `bits` bits. -/
def addrAdd (bits : Nat) (a : Nat) (i : Int) : Nat :=
  (((a : Int) + i) % ((2 ^ bits : Nat) : Int)).toNat

/-- The operations of the memory manager and the if-then-else builder mean
what their names say, in every interpretation whose pointer width is the
manager's: the range check is `lo ≤ p ≤ hi`, `ptrAdd` and `ptrAddE` add
modulo `2 ^ ptrSizeInBits`, and `ptrOffsetFromBase(base, p)` is `p - base`
modulo `2 ^ ptrSizeInBits`. -/
structure MMSound (ctx : Ctx) : Prop where
  lite : ∀ c t e ρ,
    evalBv (ctx.lite c t e) ρ = if evalBool c ρ = true then evalBv t ρ else evalBv e ρ
  ptrInRangeCheck : ∀ lo p hi ρ,
    evalBool (ctx.mm.ptrInRangeCheck lo p hi) ρ =
      decide (evalBv lo ρ ≤ evalBv p ρ ∧ evalBv p ρ ≤ evalBv hi ρ)
  ptrEq : ∀ a b ρ, evalBool (ctx.mm.ptrEq a b) ρ = (evalBv a ρ == evalBv b ρ)
  ptrAdd : ∀ p i ρ, ρ.ptrBits = ctx.mm.ptrSizeInBits →
    evalBv (ctx.mm.ptrAdd p i) ρ = addrAdd ρ.ptrBits (evalBv p ρ) i
  ptrAddE : ∀ p o ρ, ρ.ptrBits = ctx.mm.ptrSizeInBits →
    evalBv (ctx.mm.ptrAddE p o) ρ = (evalBv p ρ + evalBv o ρ) % 2 ^ ρ.ptrBits
  ptrOffsetFromBase : ∀ base p ρ, ρ.ptrBits = ctx.mm.ptrSizeInBits →
    evalBv (ctx.mm.ptrOffsetFromBase base p) ρ =
      (evalBv p ρ + (2 ^ ρ.ptrBits - evalBv base ρ % 2 ^ ρ.ptrBits)) % 2 ^ ρ.ptrBits

/-- `Extract` and `Concat` of the ALU mean what their names say:
`Extract({e, _}, low, high)` is the bits `low..high` of `e`, and
`Concat({hi, _}, {lo, w})` puts `hi` above the `w` bits of `lo`, provided
`lo` fits in the `w` bits it is declared with. -/
structure AluBitsSound (ctx : Ctx) : Prop where
  extract : ∀ e wd low high ρ,
    evalBv (ctx.alu.Extract (e, wd) low high) ρ = evalBv e ρ / 2 ^ low % 2 ^ (high + 1 - low)
  concat : ∀ hi wh lo wl ρ, evalBv lo ρ < 2 ^ wl →
    evalBv (ctx.alu.Concat (hi, wh) (lo, wl)) ρ = evalBv hi ρ * 2 ^ wl + evalBv lo ρ

/-- The value of an expression does not depend on the bound variable with
index `0`. -/
def Closed (e : Expr) : Prop :=
  ∀ (ρ : Env) (a : Nat),
    evalBv e { ρ with b0 := a } = evalBv e ρ ∧ evalArr e { ρ with b0 := a } = evalArr e ρ

/-! ### What the claims expect -/

/-- The expected body of the lambda `MemCpy` builds when only whole words
are copied: inside `dPtr ≤ b0 ≤ dstLast` the source memory read at
`b0 + ptrOffsetFromBase(dPtr, sPtr)`, elsewhere the destination memory. -/
def wholeWordsLambda (ctx : Ctx) (dPtr sPtr srcMem memRead ptrSort : Expr) (lastOff : Nat) :
    Expr :=
  mkAddrLambda ptrSort
    (ctx.lite (ctx.mm.ptrInRangeCheck dPtr (.bvar 0 ptrSort) (ctx.mm.ptrAdd dPtr (lastOff : Int)))
      (.fapp srcMem (ctx.mm.ptrAddE (.bvar 0 ptrSort) (ctx.mm.ptrOffsetFromBase dPtr sPtr)))
      (.fapp memRead (.bvar 0 ptrSort)))

/-- The source word read for the bound address:
`srcMem(b0 + ptrOffsetFromBase(dPtr, sPtr))`. -/
def srcWordAt (ctx : Ctx) (dPtr sPtr srcMem ptrSort : Expr) : Expr :=
  .fapp srcMem (ctx.mm.ptrAddE (.bvar 0 ptrSort) (ctx.mm.ptrOffsetFromBase dPtr sPtr))

/-- The destination word read for the bound address: `memRead(b0)`. -/
def dstWordAt (memRead ptrSort : Expr) : Expr :=
  .fapp memRead (.bvar 0 ptrSort)

/-- The expected stitched last word for `r` remainder bytes of a `w`-byte
word: the bits `8r .. 8w-1` of the destination word, declared `8w - 8r` bits
wide, above the bits `0 .. 8r-1` of the source word, declared `8r` bits wide. -/
def stitchedWord (ctx : Ctx) (srcWord dstWord : Expr) (w r : Nat) : Expr :=
  ctx.alu.Concat (ctx.alu.Extract (dstWord, 8 * w) (8 * r) (8 * w - 1), 8 * w - 8 * r)
    (ctx.alu.Extract (srcWord, 8 * w) 0 (8 * r - 1), 8 * r)

/-- The expected lambda of `MemCpy` when `r` remainder bytes are left: whole
words inside `dPtr ≤ b0 ≤ dPtr + firstOff`, the stitched word at
`dPtr + lastOff`, elsewhere the destination memory. -/
def stitchedLambda (ctx : Ctx) (dPtr sPtr srcMem memRead ptrSort : Expr)
    (firstOff lastOff w r : Nat) : Expr :=
  mkAddrLambda ptrSort
    (ctx.lite
      (ctx.mm.ptrInRangeCheck dPtr (.bvar 0 ptrSort) (ctx.mm.ptrAdd dPtr (firstOff : Int)))
      (.fapp srcMem (ctx.mm.ptrAddE (.bvar 0 ptrSort) (ctx.mm.ptrOffsetFromBase dPtr sPtr)))
      (ctx.lite (ctx.mm.ptrEq (.bvar 0 ptrSort) (ctx.mm.ptrAdd dPtr (lastOff : Int)))
        (stitchedWord ctx
          (.fapp srcMem (ctx.mm.ptrAddE (.bvar 0 ptrSort) (ctx.mm.ptrOffsetFromBase dPtr sPtr)))
          (.fapp memRead (.bvar 0 ptrSort)) w r)
        (.fapp memRead (.bvar 0 ptrSort))))

/-- The address `a + ptrOffsetFromBase(dPtr, sPtr)` at `bits` bits, for the
values `S` of `sPtr` and `D` of `dPtr`: `a + (S - D)` modulo `2 ^ bits`. -/
def srcAddr (bits S D a : Nat) : Nat :=
  (a + (S + (2 ^ bits - D % 2 ^ bits)) % 2 ^ bits) % 2 ^ bits

/-- The expected stores of the array `MemCpy`: the `k`-th, for `k < n`,
writes `select(srcMem, sPtr + k*w)` at `dPtr + k*w`. -/
def copyStores (ctx : Ctx) (dPtr sPtr srcMem : Expr) (w n : Nat) : List (Expr × Expr) :=
  (List.range n).map (fun k =>
    (ctx.mm.ptrAdd dPtr ((k * w : Nat) : Int),
      Expr.select srcMem (ctx.mm.ptrAdd sPtr ((k * w : Nat) : Int))))

/-! ### A plain instance of the parameters

Every operation builds the node its name suggests and simplifies nothing. -/

/-- An ALU building plain nodes. -/
def plainAlu : OpSemAlu :=
  { doEq := fun a b _ => .eq a b,
    doAdd := fun a b _ => .bvadd a b,
    doUle := fun a b _ => .bvule a b,
    si := fun v w => .bvnum (v % (2 ^ w : Nat)).toNat w,
    ui := fun v w => .bvnum v w,
    num := fun v w => .bvnum v w,
    isNum := fun e => match e with
      | .bvnum _ w => some w
      | _ => none,
    Concat := fun a b => .bconcat a.1 b.1,
    Extract := fun a low high => .bextract high low a.1 }

/-- A memory manager with 32-bit pointers building plain nodes; alignment is
not ignored. -/
def plainMM : MemManager :=
  { ptrAdd := fun p i => .bvadd p (.bvnum (i % (2 ^ 32 : Nat)).toNat 32),
    ptrAddE := fun p o => .bvadd p o,
    ptrEq := fun a b => .eq a b,
    ptrInRangeCheck := fun lo p hi => .and (.bvule lo p) (.bvule p hi),
    ptrOffsetFromBase := fun base p => .bvsub p base,
    isIgnoreAlignment := false,
    ptrSizeInBits := 32 }

/-- The plain context. -/
def plainCtx : Ctx :=
  { lite := Expr.ite, alu := plainAlu, mm := plainMM, m_memCpyUnrollCnt := 8,
    m_BitsPerByte := 8 }

/-- An interpretation in which every symbol is `3` and every array maps `a`
to `a + 1`, with 32-bit pointers. -/
def demoEnv : Env := ⟨fun _ => 3, fun _ a => a + 1, 0, 32⟩

/-- An ALU like the plain one whose `Concat` cuts the low operand down to the
width it is declared with. -/
def truncAlu : OpSemAlu :=
  { plainAlu with
    Concat := fun a b =>
      if b.2 = 0 then a.1 else .bconcat a.1 (.bextract (b.2 - 1) 0 b.1) }

/-- The plain context with the truncating ALU. -/
def truncCtx : Ctx := { plainCtx with alu := truncAlu }

/-- An interpretation with 32-bit pointers: `d` is `16`, `s` is `100`, every
other symbol is `3`; the array `src` maps `a` to `a + 1000`, every other
array maps `a` to `a + 1`. -/
def copyEnv : Env :=
  ⟨fun x => if x = "d" then 16 else if x = "s" then 100 else 3,
    fun x a => if x = "src" then a + 1000 else a + 1, 0, 32⟩

/-- An interpretation with 32-bit pointers in which the destination pointer
is below the word size: `d` is `2`, `s` is `100`, every other symbol is `3`;
the array `src` maps `a` to `0xAAAA0000 + a`, every other array maps `a` to
`0xBBBB0000 + a`. -/
def lowEnv : Env :=
  ⟨fun x => if x = "d" then 2 else if x = "s" then 100 else 3,
    fun x a => if x = "src" then 0xAAAA0000 + a else 0xBBBB0000 + a, 0, 32⟩

/-- Number of copies of the leaves a concatenation is made of. -/
def concatLeaves : Expr → Nat
  | .bconcat hi lo => concatLeaves hi + concatLeaves lo
  | _ => 1

end MemRepr

/-! ## Theorems: `PathBmc.hh` -/

namespace PathBmc

/-! ### Stub engine -/

theorem DummyEngine.call_fst (e : DummyEngine) (c : DummyCall) : (e.call c).1 = e := by
  cases c <;> rfl

theorem DummyEngine.call_snd (e : DummyEngine) (c : DummyCall) (r : SolverResult)
    (h : r ∈ (e.call c).2) : r = .UNKNOWN := by
  cases c <;> simp [DummyEngine.call, DummyEngine.result] at h
  exact h.symm

theorem DummyEngine.run_fst (e : DummyEngine) (cs : List DummyCall) : (e.run cs).1 = e := by
  induction cs generalizing e with
  | nil => rfl
  | cons c cs ih => simp [DummyEngine.run, ih, DummyEngine.call_fst]

theorem DummyEngine.run_snd (e : DummyEngine) (cs : List DummyCall) :
    ∀ r ∈ (e.run cs).2, r = .UNKNOWN := by
  induction cs generalizing e with
  | nil => intro r h; simp [DummyEngine.run] at h
  | cons c cs ih =>
    intro r h
    simp only [DummyEngine.run, List.mem_append, Option.mem_toList] at h
    rcases h with h | h
    · exact DummyEngine.call_snd e c r h
    · exact ih _ r h

/-- C5: in the stub engine, after every sequence of `addCutPoint`, `encode`
and `result` calls, `result()` returns Unknown; every verdict returned along
the way is Unknown too, so none is Sat or Unsat. -/
theorem stub_result_unknown (e : DummyEngine) (cs : List DummyCall) :
    ((e.run cs).1.result).1 = .UNKNOWN ∧
      (∀ r ∈ (e.run cs).2, r = .UNKNOWN ∧ r ≠ .SAT ∧ r ≠ .UNSAT) := by
  refine ⟨rfl, ?_⟩
  intro r h
  have := DummyEngine.run_snd e cs r h
  subst this
  exact ⟨rfl, by decide, by decide⟩

/-! ### Full engine: `result()` -/

/-- C6: in the full engine `result()` returns the stored verdict `m_result`,
the field `solveBoolAbstraction` writes, and leaves the engine as it was:
checkpoints, edges, states, precise encoding and the verdict are unchanged,
and a second call returns the same value. -/
theorem result_reads_m_result (e : Engine) :
    (e.result).1 = e.m_result ∧
      (e.result).2 = e ∧
      (e.result).2.getCps = e.getCps ∧
      (e.result).2.getEdges = e.getEdges ∧
      (e.result).2.getStates = e.getStates ∧
      (e.result).2.getFormula = e.getFormula ∧
      (e.result).2.m_result = e.m_result ∧
      ((e.result).2.result).1 = (e.result).1 ∧
      (∀ r : SolverResult, (({ e with m_result := r } : Engine).result).1 = r) ∧
      (e.solveBoolAbstraction.result).1 = e.solveBoolAbstraction.m_result :=
  ⟨rfl, rfl, rfl, rfl, rfl, rfl, rfl, rfl, fun _ => rfl, rfl⟩

/-! ### Full engine: the Boolean abstraction -/

theorem matchesClause_self (p : Path) : matchesClause p p = true := by
  simp [matchesClause]

theorem BoolSolver.models_add (b : BoolSolver) (c : Clause) :
    (b.add c).models = b.models.filter (fun q => !matchesClause q c) := by
  simp only [BoolSolver.models, BoolSolver.add, BoolSolver.excludes, List.filter_filter]
  congr 1
  funext q
  simp only [List.any_cons, Bool.not_or]

theorem BoolSolver.check_mem (b : BoolSolver) (p : Path) (h : b.check = some p) :
    p ∈ b.models := by
  unfold BoolSolver.check at h
  cases hm : b.models with
  | nil => rw [hm] at h; simp at h
  | cons a t =>
    rw [hm] at h
    simp at h
    subst h
    exact List.mem_cons_self _ _

theorem BoolSolver.length_models_add_lt (b : BoolSolver) (c : Clause) (p : Path)
    (hp : p ∈ b.models) (hm : matchesClause p c = true) :
    (b.add c).models.length < b.models.length := by
  rw [BoolSolver.models_add]
  apply List.length_filter_lt_length_iff_exists.mpr
  exact ⟨p, hp, by simp [hm]⟩

theorem BoolSolver.check_add_of_not_matches (b : BoolSolver) (c : Clause) (p : Path)
    (hp : b.check = some p) (hm : matchesClause p c = false) : (b.add c).check = some p := by
  unfold BoolSolver.check at hp ⊢
  rw [BoolSolver.models_add]
  cases hl : b.models with
  | nil => rw [hl] at hp; simp at hp
  | cons a t =>
    rw [hl] at hp
    simp at hp
    subst hp
    simp [List.filter_cons, hm]

theorem refineAndContinue_continue (e e' : Engine) (h : refineAndContinue e = .again e') :
    e.m_gen_path ∉ e.m_blocking_clauses ∧
      e' = { e with m_boolean_solver := e.m_boolean_solver.add e.m_gen_path,
                    m_blocking_clauses := e.m_gen_path :: e.m_blocking_clauses } := by
  unfold refineAndContinue Engine.refineBoolAbstraction at h
  by_cases hc : e.m_gen_path ∈ e.m_blocking_clauses
  · simp [hc] at h
  · simp [hc] at h
    exact ⟨hc, h.symm⟩

theorem refineAndContinue_of_not_mem (e : Engine) (h : e.m_gen_path ∉ e.m_blocking_clauses) :
    refineAndContinue e =
      .again { e with m_boolean_solver := e.m_boolean_solver.add e.m_gen_path,
                         m_blocking_clauses := e.m_gen_path :: e.m_blocking_clauses } := by
  unfold refineAndContinue Engine.refineBoolAbstraction
  simp [h]

theorem refineAndContinue_of_mem (e : Engine) (h : e.m_gen_path ∈ e.m_blocking_clauses) :
    refineAndContinue e = .stop (.aborted e) := by
  unfold refineAndContinue Engine.refineBoolAbstraction
  simp [h]

theorem refineAndContinue_stop (e : Engine) (o : Outcome) (h : refineAndContinue e = .stop o) :
    o = .aborted e := by
  by_cases hc : e.m_gen_path ∈ e.m_blocking_clauses
  · rw [refineAndContinue_of_mem e hc] at h
    injection h with h
    exact h.symm
  · rw [refineAndContinue_of_not_mem e hc] at h
    cases h

/-- What an iteration that goes round again has done. -/
theorem iteration_continue (oracle : Path → Verdict) (e e' : Engine)
    (h : iteration oracle e = .again e') :
    ∃ p c, e.m_boolean_solver.check = some p ∧
      ((∃ w, oracle p = .Infeasible w ∧ c = Engine.generalize p w) ∨
        (oracle p = .Indeterminate ∧ c = p)) ∧
      c ∉ e.m_blocking_clauses ∧
      e'.m_boolean_solver = e.m_boolean_solver.add c ∧
      e'.m_blocking_clauses = c :: e.m_blocking_clauses ∧
      e'.m_gen_path = c := by
  unfold iteration at h
  simp only [Engine.solveBoolAbstraction] at h
  cases hc : e.m_boolean_solver.check with
  | none =>
    simp only [hc] at h
    split at h <;> cases h
  | some p =>
    simp only [hc] at h
    cases ho : oracle p with
    | Feasible m => simp only [ho] at h; cases h
    | Infeasible w =>
      simp only [ho] at h
      obtain ⟨h1, h2⟩ := refineAndContinue_continue _ _ h
      subst h2
      exact ⟨p, Engine.generalize p w, rfl, Or.inl ⟨w, ho, rfl⟩, h1, rfl, rfl, rfl⟩
    | Indeterminate =>
      simp only [ho] at h
      obtain ⟨h1, h2⟩ := refineAndContinue_continue _ _ h
      subst h2
      exact ⟨p, p, rfl, Or.inr ⟨ho, rfl⟩, h1, rfl, rfl, rfl⟩

/-- An iteration that ends the run leaves the Boolean abstraction, the
recorded clauses and the deferred queue (up to the entry of the path being
checked) as they were. -/
theorem iteration_stop (oracle : Path → Verdict) (e : Engine) (o : Outcome)
    (h : iteration oracle e = .stop o) :
    o.state.m_boolean_solver = e.m_boolean_solver ∧
      o.state.m_blocking_clauses = e.m_blocking_clauses := by
  unfold iteration at h
  simp only [Engine.solveBoolAbstraction] at h
  cases hc : e.m_boolean_solver.check with
  | none =>
    simp only [hc] at h
    split at h <;> (injection h with h; subst h; exact ⟨rfl, rfl⟩)
  | some p =>
    simp only [hc] at h
    cases ho : oracle p with
    | Feasible m => simp only [ho] at h; injection h with h; subst h; exact ⟨rfl, rfl⟩
    | Infeasible w =>
      simp only [ho] at h
      have := refineAndContinue_stop _ _ h
      subst this
      exact ⟨rfl, rfl⟩
    | Indeterminate =>
      simp only [ho] at h
      have := refineAndContinue_stop _ _ h
      subst this
      exact ⟨rfl, rfl⟩

/-- When the clause the oracle makes the engine derive for the next
candidate is already recorded, the iteration ends the run. -/
theorem iteration_stop_of_recorded (oracle : Path → Verdict) (e : Engine) (p : Path) (c : Clause)
    (hp : e.m_boolean_solver.check = some p)
    (hv : (∃ w, oracle p = .Infeasible w ∧ c = Engine.generalize p w) ∨
        (oracle p = .Indeterminate ∧ c = p))
    (hc : c ∈ e.m_blocking_clauses) : ∃ o, iteration oracle e = .stop o := by
  unfold iteration
  simp only [Engine.solveBoolAbstraction, hp]
  rcases hv with ⟨w, ho, rfl⟩ | ⟨ho, rfl⟩
  · simp only [ho]
    exact ⟨_, refineAndContinue_of_mem _ hc⟩
  · simp only [ho]
    exact ⟨_, refineAndContinue_of_mem _ hc⟩

/-! ### Full engine: runs -/

theorem recorded_init (skeleton : List Path) : Recorded (Engine.init skeleton) := by
  constructor
  · exact List.nodup_nil
  · intro c hc
    simp [Engine.init] at hc

theorem recorded_continue (oracle : Path → Verdict) (e e' : Engine) (hr : Recorded e)
    (h : iteration oracle e = .again e') : Recorded e' := by
  obtain ⟨p, c, _, _, hc, hb, hl, _⟩ := iteration_continue oracle e e' h
  constructor
  · rw [hl]
    exact List.nodup_cons.mpr ⟨hc, hr.1⟩
  · intro d hd
    rw [hl] at hd
    rw [hb]
    simp only [BoolSolver.add]
    rcases List.mem_cons.mp hd with rfl | hd
    · exact List.mem_cons_self _ _
    · exact List.mem_cons_of_mem _ (hr.2 d hd)

theorem recorded_stop (oracle : Path → Verdict) (e : Engine) (o : Outcome) (hr : Recorded e)
    (h : iteration oracle e = .stop o) : Recorded o.state := by
  obtain ⟨hb, hl⟩ := iteration_stop oracle e o h
  unfold Recorded
  rw [hb, hl]
  exact hr

theorem recorded_stateAfter (oracle : Path → Verdict) (n : Nat) (e : Engine) (hr : Recorded e) :
    Recorded (stateAfter oracle n e) := by
  induction n generalizing e with
  | zero => exact hr
  | succ n ih =>
    unfold stateAfter
    cases h : iteration oracle e with
    | again e' => exact ih e' (recorded_continue oracle e e' hr h)
    | stop o => exact recorded_stop oracle e o hr h

theorem solveLoop_state (oracle : Path → Verdict) (n : Nat) (e : Engine) (o : Outcome)
    (h : solveLoop oracle n e = some o) : o.state = stateAfter oracle n e := by
  induction n generalizing e with
  | zero => simp [solveLoop] at h
  | succ n ih =>
    unfold solveLoop at h
    unfold stateAfter
    cases hi : iteration oracle e with
    | again e' =>
      rw [hi] at h
      exact ih e' h
    | stop o' =>
      rw [hi] at h
      simp only [Option.some.injEq] at h
      subst h
      rfl

/-- The loop ends within one iteration per remaining path plus one. -/
theorem solveLoop_terminates (oracle : Path → Verdict) (k : Nat) (e : Engine)
    (hk : e.m_boolean_solver.models.length ≤ k) : ∃ o, solveLoop oracle (k + 1) e = some o := by
  induction k generalizing e with
  | zero =>
    have hnil : e.m_boolean_solver.models = [] := List.length_eq_zero.mp (Nat.le_zero.mp hk)
    have hc : e.m_boolean_solver.check = none := by simp [BoolSolver.check, hnil]
    unfold solveLoop
    cases hi : iteration oracle e with
    | again e' =>
      obtain ⟨p, c, hp, _⟩ := iteration_continue oracle e e' hi
      rw [hc] at hp
      cases hp
    | stop o => exact ⟨o, rfl⟩
  | succ k ih =>
    unfold solveLoop
    cases hi : iteration oracle e with
    | stop o => exact ⟨o, rfl⟩
    | again e' =>
      obtain ⟨p, c, hp, hv, hc, hb, hl, _⟩ := iteration_continue oracle e e' hi
      simp only []
      cases hm : matchesClause p c with
      | true =>
        apply ih
        rw [hb]
        have := BoolSolver.length_models_add_lt e.m_boolean_solver c p
          (BoolSolver.check_mem _ _ hp) hm
        omega
      | false =>
        have hp' : e'.m_boolean_solver.check = some p := by
          rw [hb]
          exact BoolSolver.check_add_of_not_matches _ _ _ hp hm
        have hc' : c ∈ e'.m_blocking_clauses := by
          rw [hl]
          exact List.mem_cons_self _ _
        obtain ⟨o, ho⟩ := iteration_stop_of_recorded oracle e' p c hp' hv hc'
        refine ⟨o, ?_⟩
        unfold solveLoop
        rw [ho]

theorem solve_terminates (oracle : Path → Verdict) (e : Engine) :
    ∃ o, solve oracle e = some o := by
  unfold solve
  apply solveLoop_terminates
  unfold BoolSolver.models
  exact List.length_filter_le _ _

/-- C4 (no clause duplication): after any number of iterations of a run, and
in the state in which `solve()` ends, the recorded blocking clauses
`m_blocking_clauses` are pairwise distinct. -/
theorem no_clause_duplication (oracle : Path → Verdict) (skeleton : List Path) :
    (∀ n : Nat, (stateAfter oracle n (Engine.init skeleton)).m_blocking_clauses.Nodup) ∧
      ∃ o, solve oracle (Engine.init skeleton) = some o ∧ o.state.m_blocking_clauses.Nodup := by
  constructor
  · intro n
    exact (recorded_stateAfter oracle n _ (recorded_init skeleton)).1
  · obtain ⟨o, ho⟩ := solve_terminates oracle (Engine.init skeleton)
    refine ⟨o, ho, ?_⟩
    rw [solveLoop_state oracle _ _ o ho]
    exact (recorded_stateAfter oracle _ _ (recorded_init skeleton)).1

end PathBmc

/-! ## Theorems: `BvOpSem2MemRepr.cc` -/

namespace MemRepr

/-! ### `arrayStoreRewrite` -/

theorem coherent_nil (rewriter : Expr → Expr) (ptr : Expr) : Coherent rewriter ptr [] := by
  intro k v h
  simp [cacheFind] at h

theorem coherent_cacheSet (rewriter : Expr → Expr) (ptr : Expr) (cache : DagVisitMemCache)
    (k : Expr) (hc : Coherent rewriter ptr cache) :
    Coherent rewriter ptr (cacheSet cache k (ptr, rewriteSpec rewriter k)) := by
  intro k' v h _
  unfold cacheSet cacheFind at h
  by_cases hk : k = k'
  · subst hk
    simp at h
    subst h
    rfl
  · simp [List.find?_cons, hk] at h
    obtain ⟨a, ha⟩ := h
    apply hc k' v _ ‹_›
    unfold cacheFind
    simp
    exact ⟨a, ha⟩

theorem rewriteTop_coherent (rewriter : Expr → Expr) (ptr top res : Expr)
    (cache : DagVisitMemCache) (hc : Coherent rewriter ptr cache)
    (hres : rewriter (rebuildTop top res) = rewriteSpec rewriter top) :
    (rewriteTop rewriter ptr top (res, cache)).1 = rewriteSpec rewriter top ∧
      Coherent rewriter ptr (rewriteTop rewriter ptr top (res, cache)).2 := by
  have hmiss : (rewriter (rebuildTop top res),
        cacheSet cache top (ptr, rewriter (rebuildTop top res))).1 = rewriteSpec rewriter top ∧
      Coherent rewriter ptr (rewriter (rebuildTop top res),
        cacheSet cache top (ptr, rewriter (rebuildTop top res))).2 := by
    rw [hres]
    exact ⟨rfl, coherent_cacheSet rewriter ptr cache top hc⟩
  unfold rewriteTop
  cases hf : cacheFind cache top with
  | none => exact hmiss
  | some cached =>
    by_cases hp : ptr = cached.1
    · simp only [if_pos hp]
      exact ⟨hc top cached hf hp, hc⟩
    · simp only [if_neg hp]
      exact hmiss

theorem rebuildTop_of_not_store (e res : Expr) (h : e.isStore = false) : rebuildTop e res = e := by
  cases e <;> first | rfl | simp [Expr.isStore] at h

theorem rewriteSpec_of_not_store (rewriter : Expr → Expr) (e : Expr) (h : e.isStore = false) :
    rewriteSpec rewriter e = rewriter e := by
  cases e <;> first | rfl | simp [Expr.isStore] at h

theorem buildWorklist_of_not_store (e : Expr) (h : e.isStore = false) : buildWorklist e = [e] := by
  cases e <;> first | rfl | simp [Expr.isStore] at h

/-- With a coherent cache the two loops compute the recursive rewriting and
leave the cache coherent. -/
theorem arrayStoreRewrite_eq_rewriteSpec (rewriter : Expr → Expr) (ptr mem : Expr)
    (cache : DagVisitMemCache) (hc : Coherent rewriter ptr cache) :
    (arrayStoreRewrite rewriter ptr mem cache).1 = rewriteSpec rewriter mem ∧
      Coherent rewriter ptr (arrayStoreRewrite rewriter ptr mem cache).2 := by
  unfold arrayStoreRewrite
  induction mem with
  | store arr idx val iha _ _ =>
    simp only [buildWorklist, List.foldr_cons]
    obtain ⟨h1, h2⟩ := iha
    have := rewriteTop_coherent rewriter ptr (.store arr idx val)
      (List.foldr (rewriteTop rewriter ptr) (Expr.null, cache) (buildWorklist arr)).1
      (List.foldr (rewriteTop rewriter ptr) (Expr.null, cache) (buildWorklist arr)).2 h2
      (by simp only [rebuildTop, rewriteSpec, h1])
    exact this
  | _ =>
    simp only [buildWorklist, List.foldr_cons, List.foldr_nil]
    exact rewriteTop_coherent rewriter ptr _ _ cache hc rfl

theorem storeChain_append (B : Expr) (ws : List (Expr × Expr)) (w : Expr × Expr) :
    storeChain B (ws ++ [w]) = .store (storeChain B ws) w.1 w.2 := by
  simp [storeChain, List.foldl_append]

theorem iteChain_append (ctx : Ctx) (ptr B : Expr) (ws : List (Expr × Expr)) (w : Expr × Expr) :
    iteChain ctx ptr B (ws ++ [w]) =
      ctx.lite (ctx.alu.doEq ptr w.1 ctx.mm.ptrSizeInBits) w.2 (iteChain ctx ptr B ws) := by
  simp [iteChain, List.foldl_append]

theorem rewriteSpec_storeChain (ctx : Ctx) (ptr B : Expr) (ws : List (Expr × Expr))
    (hB : B.isStore = false) :
    rewriteSpec (ArrayStoreRewriter.apply ⟨ctx.lite, ptr, ctx.alu, ctx.mm.ptrSizeInBits⟩)
      (storeChain B ws) = iteChain ctx ptr B ws := by
  induction ws using List.reverseRecOn with
  | nil =>
    simp only [storeChain, iteChain, List.foldl_nil]
    rw [rewriteSpec_of_not_store _ _ hB]
    cases B <;> first | rfl | simp [Expr.isStore] at hB
  | append_singleton ws w ih =>
    rw [storeChain_append, iteChain_append, rewriteSpec, ih]
    rfl

theorem evalBv_iteChain (ctx : Ctx) (hs : IteEqSound ctx) (ptr B : Expr)
    (ws : List (Expr × Expr)) (ρ : Env) :
    evalBv (iteChain ctx ptr B ws) ρ = evalBv (.select (storeChain B ws) ptr) ρ := by
  induction ws using List.reverseRecOn with
  | nil => rfl
  | append_singleton ws w ih =>
    rw [storeChain_append, iteChain_append, hs.1, hs.2, ih]
    simp only [evalBv, evalArr, Function.update_apply, beq_iff_eq]

/-- C7: for every pointer and every chain of `n ≥ 0` stores over a non-store
base `B`, the rewriting of `loadAlignedWordFromMem` (`arrayStoreRewrite`
with an `ArrayStoreRewriter` and an empty cache) returns
`ite(ptr = idx_n, val_n, ... ite(ptr = idx_1, val_1, select(B, ptr))...)`,
and under every interpretation in which the if-then-else and the pointer
equality mean what they say this has the value of `select(mem, ptr)`. -/
theorem arrayStoreRewrite_store_chain (ctx : Ctx) (ptr B : Expr) (ws : List (Expr × Expr))
    (hB : B.isStore = false) (hs : IteEqSound ctx) :
    (rewriteLoad ctx ptr (storeChain B ws) []).1 = iteChain ctx ptr B ws ∧
      ∀ ρ : Env, evalBv (rewriteLoad ctx ptr (storeChain B ws) []).1 ρ =
        evalBv (.select (storeChain B ws) ptr) ρ := by
  have h : (rewriteLoad ctx ptr (storeChain B ws) []).1 = iteChain ctx ptr B ws := by
    unfold rewriteLoad
    rw [(arrayStoreRewrite_eq_rewriteSpec _ ptr _ [] (coherent_nil _ ptr)).1]
    exact rewriteSpec_storeChain ctx ptr B ws hB
  refine ⟨h, ?_⟩
  intro ρ
  rw [h]
  exact evalBv_iteChain ctx hs ptr B ws ρ

theorem plainCtx_sound : IteEqSound plainCtx := by
  constructor
  · intro c t e ρ
    simp [plainCtx, evalBv]
  · intro a b sz ρ
    simp [plainCtx, plainAlu, evalBool]

/-- Two stores over the array `A`, read at `p`. -/
theorem arrayStoreRewrite_store_chain_witness :
    (rewriteLoad plainCtx (.sym "p")
        (.store (.store (.sym "A") (.sym "i") (.sym "v")) (.sym "j") (.sym "w")) []).1 =
      .ite (.eq (.sym "p") (.sym "j")) (.sym "w")
        (.ite (.eq (.sym "p") (.sym "i")) (.sym "v") (.select (.sym "A") (.sym "p"))) ∧
      evalBv (rewriteLoad plainCtx (.sym "p")
        (.store (.store (.sym "A") (.sym "i") (.sym "v")) (.sym "j") (.sym "w")) []).1 demoEnv =
      evalBv (.select (.store (.store (.sym "A") (.sym "i") (.sym "v")) (.sym "j") (.sym "w"))
        (.sym "p")) demoEnv :=
  have h := arrayStoreRewrite_store_chain plainCtx (.sym "p") (.sym "A")
    [(.sym "i", .sym "v"), (.sym "j", .sym "w")] (by decide) plainCtx_sound
  ⟨h.1, h.2 demoEnv⟩

/-! ### `MemSet` -/

/-- What the array representation's `MemSet` with a concrete length builds
for `_val` the 8-bit numeral `0x1` and `wordSzInBytes = 4`, in every context
with 8 bits per byte: for `len = 1` and for `len = 4` exactly one store, at
`ptrAdd(ptr, 0)`, of the 32-bit numeral `0x01010101`, the byte repeated in
each of the four bytes of the word. -/
theorem arrayMemSet_word_repeats_byte (ctx : Ctx) (ptr mem ptrSort : Expr) (align : Nat)
    (hb : ctx.m_BitsPerByte = 8) :
    arrayMemSet ctx ptr (.bvnum 1 8) 1 mem 4 ptrSort align =
        some (.store mem (ctx.mm.ptrAdd ptr 0) (.bvnum 0x01010101 32)) ∧
      arrayMemSet ctx ptr (.bvnum 1 8) 4 mem 4 ptrSort align =
        some (.store mem (ctx.mm.ptrAdd ptr 0) (.bvnum 0x01010101 32)) := by
  have h4 : 4 * ctx.m_BitsPerByte = 32 := by rw [hb]
  constructor <;>
    simp [arrayMemSet, sizeofUnsignedLong, forWords, wordLoop, unsignedMod, memsetWord,
      List.range_succ, h4]

/-- With 8 bits per byte and plain node builders, one store of `0x01010101`
at `p + 0`, for `len = 1` and for `len = 4`. -/
theorem arrayMemSet_word_repeats_byte_witness :
    arrayMemSet plainCtx (.sym "p") (.bvnum 1 8) 1 (.sym "m") 4 (.bvsort 32) 1 =
        some (.store (.sym "m") (.bvadd (.sym "p") (.bvnum 0 32)) (.bvnum 0x01010101 32)) ∧
      arrayMemSet plainCtx (.sym "p") (.bvnum 1 8) 4 (.sym "m") 4 (.bvsort 32) 1 =
        some (.store (.sym "m") (.bvadd (.sym "p") (.bvnum 0 32)) (.bvnum 0x01010101 32)) :=
  arrayMemSet_word_repeats_byte plainCtx (.sym "p") (.sym "m") (.bvsort 32) 1 rfl

/-- C8 fails on the code: for `_val = 0x1` and `wordSzInBytes = 4` the comment
of `MemSet` (and the claim) gives the stored word as `0x00000001`, for
`len = 1` and for `len = 4`; the code, which fills the word with
`memset(&val, byte, wordSzInBytes)`, produces one store of `0x01010101` in
both cases, and not one of `0x00000001`. -/
theorem arrayMemSet_word_is_not_one :
    arrayMemSet plainCtx (.sym "p") (.bvnum 1 8) 1 (.sym "m") 4 (.bvsort 32) 1 =
        some (.store (.sym "m") (plainCtx.mm.ptrAdd (.sym "p") 0) (.bvnum 0x01010101 32)) ∧
      arrayMemSet plainCtx (.sym "p") (.bvnum 1 8) 4 (.sym "m") 4 (.bvsort 32) 1 =
        some (.store (.sym "m") (plainCtx.mm.ptrAdd (.sym "p") 0) (.bvnum 0x01010101 32)) ∧
      arrayMemSet plainCtx (.sym "p") (.bvnum 1 8) 1 (.sym "m") 4 (.bvsort 32) 1 ≠
        some (.store (.sym "m") (plainCtx.mm.ptrAdd (.sym "p") 0) (.bvnum 0x00000001 32)) ∧
      arrayMemSet plainCtx (.sym "p") (.bvnum 1 8) 4 (.sym "m") 4 (.bvsort 32) 1 ≠
        some (.store (.sym "m") (plainCtx.mm.ptrAdd (.sym "p") 0) (.bvnum 0x00000001 32)) := by
  decide

theorem concatLoop_plain_leaves (n i : Nat) (e : Expr) :
    concatLeaves (concatLoop plainAlu n i e) = 2 ^ n * concatLeaves e := by
  induction n generalizing i e with
  | zero => simp [concatLoop]
  | succ n ih =>
    rw [concatLoop, ih]
    simp only [plainAlu, concatLeaves]
    ring

theorem concatLoop_plain_width (leaf n i : Nat) (e : Expr) :
    bitWidth leaf (concatLoop plainAlu n i e) = 2 ^ n * bitWidth leaf e := by
  induction n generalizing i e with
  | zero => simp [concatLoop]
  | succ n ih =>
    rw [concatLoop, ih]
    simp only [plainAlu, bitWidth]
    ring

/-- The fill word built for a symbolic byte and a word of `n + 1` bytes is
made of `2 ^ n` copies of the byte. -/
theorem extendValToWord_plain (x : String) (n : Nat) :
    concatLeaves (extendValToWord plainAlu (.sym x) (n + 1)) = 2 ^ n ∧
      bitWidth 8 (extendValToWord plainAlu (.sym x) (n + 1)) = 8 * 2 ^ n := by
  unfold extendValToWord
  rw [concatLoop_plain_leaves, concatLoop_plain_width]
  simp [concatLeaves, bitWidth, Nat.mul_comm]

/-- C9 fails at `wordSzInBytes = 4`: for the symbolic byte `v` the three
`MemSet` variants build the same fill word; both operands of every `Concat`
are the word built so far, so the word is made of eight copies of `v` and is
64 bits wide, where four copies and 32 bits are claimed. -/
theorem fill_word_for_four_bytes :
    arrayMemSetSymFill plainCtx (.sym "v") 4 = some (extendValToWord plainAlu (.sym "v") 4) ∧
      lambdaMemSetFill plainCtx (.sym "v") 4 = some (extendValToWord plainAlu (.sym "v") 4) ∧
      lambdaMemSetSymFill plainCtx (.sym "v") 4 = some (extendValToWord plainAlu (.sym "v") 4) ∧
      (∀ alu : OpSemAlu, ∀ v : Expr, extendValToWord alu v 4 =
        alu.Concat (alu.Concat (alu.Concat (v, 8) (v, 8), 8) (alu.Concat (v, 8) (v, 8), 16), 8)
          (alu.Concat (alu.Concat (v, 8) (v, 8), 8) (alu.Concat (v, 8) (v, 8), 16), 24)) ∧
      concatLeaves (extendValToWord plainAlu (.sym "v") 4) = 8 ∧
      bitWidth 8 (extendValToWord plainAlu (.sym "v") 4) = 64 ∧
      concatLeaves (extendValToWord plainAlu (.sym "v") 4) ≠ 4 ∧
      bitWidth 8 (extendValToWord plainAlu (.sym "v") 4) ≠ 8 * 4 := by
  refine ⟨rfl, rfl, rfl, fun _ _ => rfl, ?_, ?_, ?_, ?_⟩ <;> decide

/-! ### `MemCpy` in the lambda representation -/

theorem memCpyGuard_false (ctx : Ctx) (wordSzInBytes align : Nat)
    (h1 : wordSzInBytes ≠ 1) (h4 : ¬ (wordSzInBytes = 4 ∧ align % 4 = 0))
    (h8 : ¬ (wordSzInBytes = 8 ∧ align % 4 = 0)) (hi : ctx.mm.isIgnoreAlignment = false) :
    memCpyGuard ctx wordSzInBytes align = false := by
  unfold memCpyGuard
  simp only [hi, Bool.or_false, Bool.or_eq_false_iff, Bool.and_eq_false_imp, beq_eq_false_iff_ne,
    beq_iff_eq, ne_eq]
  exact ⟨⟨h1, fun a b => h4 ⟨a, b⟩⟩, fun a b => h8 ⟨a, b⟩⟩

/-- C10: in the lambda representation, when the size/alignment guard fails
(`wordSzInBytes` is not 1, not 4 with `align % 4 = 0`, not 8 with
`align % 4 = 0`, and alignment is not ignored), `MemCpy` with a concrete
length, `MemCpy` with a symbolic length and `createMemCpyExpr` all return
exactly the destination memory `memRead`. -/
theorem lambdaMemCpy_noop_when_guard_fails (ctx : Ctx)
    (dPtr sPtr lenE memTrsfrRead memRead ptrSort dstLast : Expr) (len wordSzInBytes align : Nat)
    (h1 : wordSzInBytes ≠ 1) (h4 : ¬ (wordSzInBytes = 4 ∧ align % 4 = 0))
    (h8 : ¬ (wordSzInBytes = 8 ∧ align % 4 = 0)) (hi : ctx.mm.isIgnoreAlignment = false) :
    lambdaMemCpy ctx dPtr sPtr len memTrsfrRead memRead wordSzInBytes ptrSort align = memRead ∧
      lambdaMemCpySym ctx dPtr sPtr lenE memTrsfrRead memRead wordSzInBytes ptrSort align
        = memRead ∧
      createMemCpyExpr ctx dPtr sPtr memRead ptrSort memTrsfrRead dstLast wordSzInBytes align
        = memRead := by
  have hg := memCpyGuard_false ctx wordSzInBytes align h1 h4 h8 hi
  refine ⟨?_, ?_, ?_⟩
  · unfold lambdaMemCpy
    simp [hg]
  · unfold lambdaMemCpySym createMemCpyExpr
    simp [hg]
  · unfold createMemCpyExpr
    simp [hg]

/-- A 4-byte word size with alignment 2: the copy of 8 bytes is a no-op. -/
theorem lambdaMemCpy_noop_when_guard_fails_witness :
    lambdaMemCpy plainCtx (.sym "d") (.sym "s") 8 (.sym "src") (.sym "dst") 4 (.bvsort 32) 2 =
        .sym "dst" ∧
      lambdaMemCpySym plainCtx (.sym "d") (.sym "s") (.bvnum 8 32) (.sym "src") (.sym "dst") 4
        (.bvsort 32) 2 = .sym "dst" :=
  have h := lambdaMemCpy_noop_when_guard_fails plainCtx (.sym "d") (.sym "s") (.bvnum 8 32)
    (.sym "src") (.sym "dst") (.bvsort 32) .null 8 4 2 (by decide) (by decide) (by decide) rfl
  ⟨h.1, h.2.1⟩

/-! ### Meaning of the plain instance -/

theorem addrAdd_natCast (bits a k : Nat) : addrAdd bits a (k : Int) = (a + k) % 2 ^ bits := by
  unfold addrAdd
  rw [← Int.natCast_add, ← Int.natCast_mod, Int.toNat_natCast]

theorem closed_sym (x : String) : Closed (.sym x) := by
  intro ρ a
  exact ⟨rfl, rfl⟩

theorem evalArr_mkAddrLambda (ptrSort body : Expr) (ρ : Env) (a : Nat) :
    evalArr (mkAddrLambda ptrSort body) ρ a = evalBv body { ρ with b0 := a } := by
  simp [mkAddrLambda, evalArr]

theorem plainCtx_mmSound : MMSound plainCtx where
  lite := by
    intro c t e ρ
    simp [plainCtx, evalBv]
  ptrInRangeCheck := by
    intro lo p hi ρ
    simp [plainCtx, plainMM, evalBool]
  ptrEq := by
    intro a b ρ
    simp [plainCtx, plainMM, evalBool]
  ptrAdd := by
    intro p i ρ h
    have h32 : ρ.ptrBits = 32 := h
    simp only [plainCtx, plainMM, evalBv, addrAdd, h32]
    omega
  ptrAddE := by
    intro p o ρ _
    simp [plainCtx, plainMM, evalBv]
  ptrOffsetFromBase := by
    intro base p ρ _
    simp [plainCtx, plainMM, evalBv]

/-! ### `MemCpy` of whole words in the lambda representation -/

theorem memCpyGuard_cases (ctx : Ctx) (w align : Nat) (hg : memCpyGuard ctx w align = true)
    (hi : ctx.mm.isIgnoreAlignment = false) : w = 1 ∨ w = 4 ∨ w = 8 := by
  unfold memCpyGuard at hg
  simp only [hi, Bool.or_false, Bool.or_eq_true, Bool.and_eq_true, beq_iff_eq] at hg
  rcases hg with (h | h) | h
  · exact Or.inl h
  · exact Or.inr (Or.inl h.1)
  · exact Or.inr (Or.inr h.1)

/-- The `unsigned` computation of `lastAlignedBytePosToCopy` and of the
offset of the word after it. -/
theorem lastAligned_eq (ctx : Ctx) (len w : Nat) (hi : ctx.mm.isIgnoreAlignment = false)
    (hw : w = 1 ∨ w = 4 ∨ w = 8) (hlen : len < unsignedMod) :
    (lastAlignedAndRemainder ctx len w).1 = (len / w * w + unsignedMod - w) % unsignedMod ∧
      (lastAlignedAndRemainder ctx len w).2 = len % w ∧
      ((lastAlignedAndRemainder ctx len w).1 + w) % unsignedMod = len / w * w ∧
      (0 < len → len % w = 0 → (lastAlignedAndRemainder ctx len w).1 = len - w) := by
  unfold lastAlignedAndRemainder
  simp only [hi, Bool.false_eq_true, if_false]
  unfold unsignedMod at hlen ⊢
  norm_num at hlen ⊢
  rcases hw with rfl | rfl | rfl <;> refine ⟨?_, ?_, ?_⟩ <;> omega

theorem mod_source_address (N S D a : Nat) (hN : 0 < N) (hDa : D ≤ a) :
    (a + (S + (N - D % N)) % N) % N = (S + (a - D)) % N := by
  have hr := Nat.mod_lt D hN
  have hq := Nat.div_add_mod D N
  rw [Nat.add_mod, Nat.mod_mod, ← Nat.add_mod]
  have : a + (S + (N - D % N)) = (S + (a - D)) + N * (D / N + 1) := by
    rw [Nat.mul_add, Nat.mul_one]
    omega
  rw [this, Nat.add_mul_mod_self_left]

/-- Value at address `a` of the lambda built for whole words. -/
theorem evalArr_wholeWordsLambda (ctx : Ctx) (hs : MMSound ctx)
    (dPtr sPtr srcMem memRead ptrSort : Expr) (lastOff : Nat)
    (hd : Closed dPtr) (hsp : Closed sPtr) (hsrc : Closed srcMem) (hdst : Closed memRead)
    (ρ : Env) (a : Nat) (hb : ρ.ptrBits = ctx.mm.ptrSizeInBits) :
    evalArr (wholeWordsLambda ctx dPtr sPtr srcMem memRead ptrSort lastOff) ρ a =
      if evalBv dPtr ρ ≤ a ∧ a ≤ (evalBv dPtr ρ + lastOff) % 2 ^ ρ.ptrBits then
        evalArr srcMem ρ ((evalBv sPtr ρ + (a - evalBv dPtr ρ)) % 2 ^ ρ.ptrBits)
      else evalArr memRead ρ a := by
  have hb' : ({ ρ with b0 := a } : Env).ptrBits = ctx.mm.ptrSizeInBits := hb
  have hN : 0 < 2 ^ ρ.ptrBits := Nat.two_pow_pos _
  unfold wholeWordsLambda
  rw [evalArr_mkAddrLambda, hs.lite, hs.ptrInRangeCheck, hs.ptrAdd _ _ _ hb', addrAdd_natCast]
  simp only [evalBv, hs.ptrAddE _ _ _ hb', hs.ptrOffsetFromBase _ _ _ hb', (hd ρ a).1,
    (hsp ρ a).1, (hsrc ρ a).2, (hdst ρ a).2, decide_eq_true_eq]
  by_cases hc : evalBv dPtr ρ ≤ a ∧ a ≤ (evalBv dPtr ρ + lastOff) % 2 ^ ρ.ptrBits
  · rw [if_pos hc, if_pos hc, mod_source_address _ _ _ _ hN hc.1]
  · rw [if_neg hc, if_neg hc]

/-- C11: in the lambda representation's `MemCpy` with a concrete length,
when the guard holds and alignment is not ignored: for `len = 0` the result
is exactly `memRead`; for `len > 0` a multiple of `w = wordSzInBytes` the
result is the lambda that maps every address `a` with
`dPtr ≤ a ≤ dPtr + len - w` to the source memory read at
`a + ptrOffsetFromBase(dPtr, sPtr)`, which is the source address
`sPtr + (a - dPtr)` when `ptrOffsetFromBase(base, p)` is `p - base`, and maps
every other address `a` to `memRead(a)`. -/
theorem lambdaMemCpy_whole_words (ctx : Ctx) (dPtr sPtr memTrsfrRead memRead ptrSort : Expr)
    (len w align : Nat) (hg : memCpyGuard ctx w align = true)
    (hi : ctx.mm.isIgnoreAlignment = false) (hlen : len < unsignedMod) (hs : MMSound ctx)
    (hd : Closed dPtr) (hsp : Closed sPtr) (hsrc : Closed memTrsfrRead) (hdst : Closed memRead) :
    (len = 0 → lambdaMemCpy ctx dPtr sPtr len memTrsfrRead memRead w ptrSort align = memRead) ∧
      (0 < len → len % w = 0 →
        lambdaMemCpy ctx dPtr sPtr len memTrsfrRead memRead w ptrSort align =
            wholeWordsLambda ctx dPtr sPtr memTrsfrRead memRead ptrSort (len - w) ∧
          ∀ (ρ : Env) (a : Nat), ρ.ptrBits = ctx.mm.ptrSizeInBits →
            evalArr (lambdaMemCpy ctx dPtr sPtr len memTrsfrRead memRead w ptrSort align) ρ a =
              if evalBv dPtr ρ ≤ a ∧ a ≤ (evalBv dPtr ρ + (len - w)) % 2 ^ ρ.ptrBits then
                evalArr memTrsfrRead ρ ((evalBv sPtr ρ + (a - evalBv dPtr ρ)) % 2 ^ ρ.ptrBits)
              else evalArr memRead ρ a) := by
  constructor
  · intro h0
    unfold lambdaMemCpy
    simp [hg, h0]
  · intro hpos hmul
    have hw := memCpyGuard_cases ctx w align hg hi
    obtain ⟨_, h2, _, h4⟩ := lastAligned_eq ctx len w hi hw hlen
    have hstruct : lambdaMemCpy ctx dPtr sPtr len memTrsfrRead memRead w ptrSort align =
        wholeWordsLambda ctx dPtr sPtr memTrsfrRead memRead ptrSort (len - w) := by
      unfold lambdaMemCpy wholeWordsLambda
      simp only [hg, if_true, hpos, gt_iff_lt, h2, hmul, ne_eq, not_true_eq_false, if_false,
        h4 hpos hmul]
    refine ⟨hstruct, ?_⟩
    intro ρ a hb
    rw [hstruct]
    exact evalArr_wholeWordsLambda ctx hs dPtr sPtr memTrsfrRead memRead ptrSort (len - w)
      hd hsp hsrc hdst ρ a hb

/-- Copying 8 bytes in 4-byte words from `s = 100` to `d = 16`: address `20`
is inside the copied range and reads the source at `104`, address `24` is
outside and keeps the destination's value. -/
theorem lambdaMemCpy_whole_words_witness :
    lambdaMemCpy plainCtx (.sym "d") (.sym "s") 8 (.sym "src") (.sym "dst") 4 (.bvsort 32) 4 =
        wholeWordsLambda plainCtx (.sym "d") (.sym "s") (.sym "src") (.sym "dst") (.bvsort 32) 4 ∧
      evalArr (lambdaMemCpy plainCtx (.sym "d") (.sym "s") 8 (.sym "src") (.sym "dst") 4
        (.bvsort 32) 4) copyEnv 20 = 1104 ∧
      evalArr (lambdaMemCpy plainCtx (.sym "d") (.sym "s") 8 (.sym "src") (.sym "dst") 4
        (.bvsort 32) 4) copyEnv 24 = 25 := by
  have h := (lambdaMemCpy_whole_words plainCtx (.sym "d") (.sym "s") (.sym "src") (.sym "dst")
    (.bvsort 32) 8 4 4 (by decide) rfl (by decide) plainCtx_mmSound (closed_sym _) (closed_sym _)
    (closed_sym _) (closed_sym _)).2 (by decide) (by decide)
  refine ⟨h.1, ?_, ?_⟩
  · rw [h.2 copyEnv 20 rfl]
    decide
  · rw [h.2 copyEnv 24 rfl]
    decide

/-! ### `MemCpy` with remainder bytes in the lambda representation -/

theorem truncCtx_mmSound : MMSound truncCtx where
  lite := plainCtx_mmSound.lite
  ptrInRangeCheck := plainCtx_mmSound.ptrInRangeCheck
  ptrEq := plainCtx_mmSound.ptrEq
  ptrAdd := plainCtx_mmSound.ptrAdd
  ptrAddE := plainCtx_mmSound.ptrAddE
  ptrOffsetFromBase := plainCtx_mmSound.ptrOffsetFromBase

theorem truncCtx_aluBitsSound : AluBitsSound truncCtx where
  extract := by
    intro e wd low high ρ
    simp [truncCtx, truncAlu, plainAlu, evalBv]
  concat := by
    intro hi wh lo wl ρ hlt
    by_cases h0 : wl = 0
    · subst h0
      have : evalBv lo ρ = 0 := by simpa using hlt
      simp [truncCtx, truncAlu, this]
    · have hw : wl - 1 + 1 - 0 = wl := by omega
      simp [truncCtx, truncAlu, h0, evalBv, bitWidth, hw, Nat.mod_eq_of_lt hlt]

/-- The bits of a word put together from the high part of `D` and the low
`p` bits of `S`. -/
theorem stitch_bits (S D p q : Nat) :
    D / 2 ^ p % 2 ^ q * 2 ^ p + S % 2 ^ p < 2 ^ (q + p) ∧
      (D / 2 ^ p % 2 ^ q * 2 ^ p + S % 2 ^ p) % 2 ^ p = S % 2 ^ p ∧
      (D / 2 ^ p % 2 ^ q * 2 ^ p + S % 2 ^ p) / 2 ^ p = D / 2 ^ p % 2 ^ q := by
  have hp : 0 < 2 ^ p := Nat.two_pow_pos p
  have hs : S % 2 ^ p < 2 ^ p := Nat.mod_lt _ hp
  have hd : D / 2 ^ p % 2 ^ q < 2 ^ q := Nat.mod_lt _ (Nat.two_pow_pos q)
  refine ⟨?_, ?_, ?_⟩
  · rw [Nat.pow_add]
    calc D / 2 ^ p % 2 ^ q * 2 ^ p + S % 2 ^ p
        < D / 2 ^ p % 2 ^ q * 2 ^ p + 2 ^ p := by omega
      _ = (D / 2 ^ p % 2 ^ q + 1) * 2 ^ p := by ring
      _ ≤ 2 ^ q * 2 ^ p := Nat.mul_le_mul_right _ hd
  · rw [Nat.mul_add_mod_of_lt hs]
  · rw [Nat.add_comm, Nat.add_mul_div_right _ _ hp, Nat.div_eq_of_lt hs, Nat.zero_add]

/-- Value of the stitched word for `r` remainder bytes, `0 < r < w`. -/
theorem evalBv_stitchedWord (ctx : Ctx) (ha : AluBitsSound ctx) (srcWord dstWord : Expr)
    (w r : Nat) (hr : 0 < r) (hrw : r < w) (ρ : Env) :
    evalBv (stitchedWord ctx srcWord dstWord w r) ρ =
      evalBv dstWord ρ / 2 ^ (8 * r) % 2 ^ (8 * (w - r)) * 2 ^ (8 * r) +
        evalBv srcWord ρ % 2 ^ (8 * r) := by
  have h1 : 8 * r - 1 + 1 - 0 = 8 * r := by omega
  have h2 : 8 * w - 1 + 1 - 8 * r = 8 * (w - r) := by omega
  have hsrc : evalBv (ctx.alu.Extract (srcWord, 8 * w) 0 (8 * r - 1)) ρ =
      evalBv srcWord ρ % 2 ^ (8 * r) := by
    rw [ha.extract, h1, Nat.pow_zero, Nat.div_one]
  unfold stitchedWord
  rw [ha.concat _ _ _ _ _ (by rw [hsrc]; exact Nat.mod_lt _ (Nat.two_pow_pos _)), hsrc,
    ha.extract, h2]

/-- C12, as amended: in the lambda representation's `MemCpy` with a concrete
length `len > 0`, alignment not ignored and `r = len mod w ≠ 0`: the
stitched last word sits at `ptrAdd(dPtr, (len / w) * w)`, also for `len < w`
where `(len / w - 1) * w` wraps around on `unsigned`; the word is the
concatenation of a chunk declared `8w - 8r` bits wide and one declared `8r`
bits wide; for every address `a` its value is below `2 ^ (8w)`, its low `8r`
bits are those of the source word at `a + ptrOffsetFromBase(dPtr, sPtr)` and
the bits above are the high `8(w - r)` bits of the destination word at `a`;
it is the value of the resulting memory at `a = dPtr + (len / w) * w`
whenever that address is outside the range of the words copied whole, which
the lambda tests first; and with 32-bit pointers the address is outside
that range whenever `len ≥ w` or `dPtr ≥ w`. -/
theorem lambdaMemCpy_stitches_last_word (ctx : Ctx)
    (dPtr sPtr memTrsfrRead memRead ptrSort : Expr) (len w align : Nat)
    (hg : memCpyGuard ctx w align = true) (hi : ctx.mm.isIgnoreAlignment = false)
    (hlen : len < unsignedMod) (hpos : 0 < len) (hr : len % w ≠ 0)
    (hs : MMSound ctx) (ha : AluBitsSound ctx)
    (hd : Closed dPtr) (hsp : Closed sPtr) (hsrc : Closed memTrsfrRead) (hdst : Closed memRead) :
    lambdaMemCpy ctx dPtr sPtr len memTrsfrRead memRead w ptrSort align =
        stitchedLambda ctx dPtr sPtr memTrsfrRead memRead ptrSort
          ((len / w * w + unsignedMod - w) % unsignedMod) (len / w * w) w (len % w) ∧
      (len < w → (len / w * w + unsignedMod - w) % unsignedMod = unsignedMod - w ∧
        len / w * w = 0) ∧
      (8 * w - 8 * (len % w)) + 8 * (len % w) = 8 * w ∧
      ∀ (ρ : Env) (a : Nat), ρ.ptrBits = ctx.mm.ptrSizeInBits →
        (evalBv (stitchedWord ctx (srcWordAt ctx dPtr sPtr memTrsfrRead ptrSort)
              (dstWordAt memRead ptrSort) w (len % w)) { ρ with b0 := a } < 2 ^ (8 * w) ∧
          evalBv (stitchedWord ctx (srcWordAt ctx dPtr sPtr memTrsfrRead ptrSort)
              (dstWordAt memRead ptrSort) w (len % w)) { ρ with b0 := a } % 2 ^ (8 * (len % w)) =
            evalArr memTrsfrRead ρ (srcAddr ρ.ptrBits (evalBv sPtr ρ) (evalBv dPtr ρ) a)
              % 2 ^ (8 * (len % w)) ∧
          evalBv (stitchedWord ctx (srcWordAt ctx dPtr sPtr memTrsfrRead ptrSort)
              (dstWordAt memRead ptrSort) w (len % w)) { ρ with b0 := a } / 2 ^ (8 * (len % w)) =
            evalArr memRead ρ a / 2 ^ (8 * (len % w)) % 2 ^ (8 * (w - len % w))) ∧
        (a = (evalBv dPtr ρ + len / w * w) % 2 ^ ρ.ptrBits →
          ¬ (evalBv dPtr ρ ≤ a ∧
              a ≤ (evalBv dPtr ρ + (len / w * w + unsignedMod - w) % unsignedMod) %
                2 ^ ρ.ptrBits) →
          evalArr (lambdaMemCpy ctx dPtr sPtr len memTrsfrRead memRead w ptrSort align) ρ a =
            evalBv (stitchedWord ctx (srcWordAt ctx dPtr sPtr memTrsfrRead ptrSort)
              (dstWordAt memRead ptrSort) w (len % w)) { ρ with b0 := a }) ∧
        (ρ.ptrBits = 32 → evalBv dPtr ρ < 2 ^ 32 → (w ≤ len ∨ w ≤ evalBv dPtr ρ) →
          ¬ (evalBv dPtr ρ ≤ (evalBv dPtr ρ + len / w * w) % 2 ^ ρ.ptrBits ∧
              (evalBv dPtr ρ + len / w * w) % 2 ^ ρ.ptrBits ≤
                (evalBv dPtr ρ + (len / w * w + unsignedMod - w) % unsignedMod) %
                  2 ^ ρ.ptrBits)) := by
  have hw := memCpyGuard_cases ctx w align hg hi
  have hw0 : 0 < w := by rcases hw with rfl | rfl | rfl <;> decide
  have hrw : len % w < w := Nat.mod_lt _ hw0
  obtain ⟨h1, h2, h3, _⟩ := lastAligned_eq ctx len w hi hw hlen
  have h3' : ((len / w * w + unsignedMod - w) % unsignedMod + w) % unsignedMod =
      len / w * w := by
    rw [← h1]
    exact h3
  have e1 : w * 8 % unsignedMod = 8 * w := by
    unfold unsignedMod
    rcases hw with rfl | rfl | rfl <;> decide
  have e2 : len % w * 8 % unsignedMod = 8 * (len % w) := by
    unfold unsignedMod
    omega
  have e3 : (8 * (len % w) + unsignedMod - 1) % unsignedMod = 8 * (len % w) - 1 := by
    unfold unsignedMod
    omega
  have e4 : (8 * w + unsignedMod - 1) % unsignedMod = 8 * w - 1 := by
    unfold unsignedMod
    omega
  have e5 : (8 * w + unsignedMod - 8 * (len % w)) % unsignedMod = 8 * w - 8 * (len % w) := by
    unfold unsignedMod
    omega
  have hstruct : lambdaMemCpy ctx dPtr sPtr len memTrsfrRead memRead w ptrSort align =
      stitchedLambda ctx dPtr sPtr memTrsfrRead memRead ptrSort
        ((len / w * w + unsignedMod - w) % unsignedMod) (len / w * w) w (len % w) := by
    unfold lambdaMemCpy stitchedLambda stitchedWord
    simp only [hg, if_true, hpos, gt_iff_lt, h2, hr, ne_eq, not_false_eq_true, h1, h3', e1, e2,
      e3, e4, e5]
  refine ⟨hstruct, ?_, by omega, ?_⟩
  · intro hlt
    rw [Nat.div_eq_of_lt hlt]
    unfold unsignedMod
    omega
  · intro ρ a hb
    have hb' : ({ ρ with b0 := a } : Env).ptrBits = ctx.mm.ptrSizeInBits := hb
    have hword : evalBv (stitchedWord ctx (srcWordAt ctx dPtr sPtr memTrsfrRead ptrSort)
          (dstWordAt memRead ptrSort) w (len % w)) { ρ with b0 := a } =
        evalArr memRead ρ a / 2 ^ (8 * (len % w)) % 2 ^ (8 * (w - len % w)) *
            2 ^ (8 * (len % w)) +
          evalArr memTrsfrRead ρ (srcAddr ρ.ptrBits (evalBv sPtr ρ) (evalBv dPtr ρ) a) %
            2 ^ (8 * (len % w)) := by
      rw [evalBv_stitchedWord ctx ha _ _ w (len % w) (Nat.pos_of_ne_zero hr) hrw]
      simp only [srcWordAt, dstWordAt, evalBv, hs.ptrAddE _ _ _ hb',
        hs.ptrOffsetFromBase _ _ _ hb', (hd ρ a).1, (hsp ρ a).1, (hsrc ρ a).2, (hdst ρ a).2,
        srcAddr]
    have hbits := stitch_bits
      (evalArr memTrsfrRead ρ (srcAddr ρ.ptrBits (evalBv sPtr ρ) (evalBv dPtr ρ) a))
      (evalArr memRead ρ a) (8 * (len % w)) (8 * (w - len % w))
    have hsum : 8 * (w - len % w) + 8 * (len % w) = 8 * w := by omega
    rw [hsum] at hbits
    refine ⟨by rw [hword]; exact hbits, ?_, ?_⟩
    · intro haddr hout
      rw [hstruct]
      unfold stitchedLambda
      rw [evalArr_mkAddrLambda, hs.lite, hs.ptrInRangeCheck, hs.ptrAdd _ _ _ hb',
        addrAdd_natCast]
      simp only [evalBv, (hd ρ a).1, decide_eq_true_eq]
      rw [if_neg hout, hs.lite, hs.ptrEq, hs.ptrAdd _ _ _ hb', addrAdd_natCast]
      simp only [evalBv, (hd ρ a).1, beq_iff_eq]
      rw [if_pos haddr]
      rfl
    · intro h32 hD hor
      rw [h32]
      unfold unsignedMod at hlen ⊢
      norm_num at hlen hD ⊢
      rcases hw with rfl | rfl | rfl <;> omega

/-- Copying 6 bytes in 4-byte words from `s = 100` to `d = 16`: the word at
`16` is copied whole, the word at `20` is stitched from the low 16 bits of
the source word at `104` and the high 16 bits of the destination word.
Copying 2 bytes: no word is copied whole and the word at `16` is stitched
from the source word at `100`. -/
theorem lambdaMemCpy_stitches_last_word_witness :
    lambdaMemCpy truncCtx (.sym "d") (.sym "s") 6 (.sym "src") (.sym "dst") 4 (.bvsort 32) 4 =
        stitchedLambda truncCtx (.sym "d") (.sym "s") (.sym "src") (.sym "dst") (.bvsort 32)
          0 4 4 2 ∧
      evalArr (lambdaMemCpy truncCtx (.sym "d") (.sym "s") 6 (.sym "src") (.sym "dst") 4
        (.bvsort 32) 4) copyEnv 20 % 2 ^ 16 = 1104 % 2 ^ 16 ∧
      evalArr (lambdaMemCpy truncCtx (.sym "d") (.sym "s") 6 (.sym "src") (.sym "dst") 4
        (.bvsort 32) 4) copyEnv 20 / 2 ^ 16 = 21 / 2 ^ 16 % 2 ^ 16 ∧
      evalArr (lambdaMemCpy truncCtx (.sym "d") (.sym "s") 2 (.sym "src") (.sym "dst") 4
        (.bvsort 32) 4) copyEnv 16 % 2 ^ 16 = 1100 % 2 ^ 16 ∧
      evalArr (lambdaMemCpy truncCtx (.sym "d") (.sym "s") 2 (.sym "src") (.sym "dst") 4
        (.bvsort 32) 4) copyEnv 16 / 2 ^ 16 = 17 / 2 ^ 16 % 2 ^ 16 := by
  have h := lambdaMemCpy_stitches_last_word truncCtx (.sym "d") (.sym "s") (.sym "src")
    (.sym "dst") (.bvsort 32) 6 4 4 (by decide) rfl (by decide) (by decide) (by decide)
    truncCtx_mmSound truncCtx_aluBitsSound (closed_sym _) (closed_sym _) (closed_sym _)
    (closed_sym _)
  have k := lambdaMemCpy_stitches_last_word truncCtx (.sym "d") (.sym "s") (.sym "src")
    (.sym "dst") (.bvsort 32) 2 4 4 (by decide) rfl (by decide) (by decide) (by decide)
    truncCtx_mmSound truncCtx_aluBitsSound (closed_sym _) (closed_sym _) (closed_sym _)
    (closed_sym _)
  have hv := h.2.2.2 copyEnv 20 rfl
  have kv := k.2.2.2 copyEnv 16 rfl
  have hat := hv.2.1 (by decide) (hv.2.2 rfl (by decide) (by decide))
  have kat := kv.2.1 (by decide) (kv.2.2 rfl (by decide) (by decide))
  rw [hat, kat]
  exact ⟨h.1, hv.1.2.1, hv.1.2.2, kv.1.2.1, kv.1.2.2⟩

/-- C12, as stated, fails: copying 2 bytes with 4-byte words to the
destination pointer `2` on 32-bit pointers, the range tested first for whole
words is `2 .. 2 + (2 ^ 32 - 4)` modulo `2 ^ 32`, that is `2 .. 2 ^ 32 - 2`,
and holds the address `2` of the last word; the word read back there is the
whole source word `0xAAAA0064` and its high 16 bits are not those of the
destination word `0xBBBB0002`. -/
theorem lambdaMemCpy_last_word_shadowed :
    (evalBv (.sym "d") lowEnv + 2 / 4 * 4) % 2 ^ 32 = 2 ∧
      evalArr (.sym "src") lowEnv 100 = 0xAAAA0064 ∧
      evalArr (.sym "dst") lowEnv 2 = 0xBBBB0002 ∧
      evalArr (lambdaMemCpy truncCtx (.sym "d") (.sym "s") 2 (.sym "src") (.sym "dst") 4
        (.bvsort 32) 4) lowEnv 2 = 0xAAAA0064 ∧
      evalArr (lambdaMemCpy truncCtx (.sym "d") (.sym "s") 2 (.sym "src") (.sym "dst") 4
        (.bvsort 32) 4) lowEnv 2 / 2 ^ 16 ≠ 0xBBBB0002 / 2 ^ 16 % 2 ^ 16 := by
  decide

/-- Copying 2 bytes with 4-byte words: no word is copied whole,
`(len / w - 1) * w` wraps to `2 ^ 32 - 4`, and the stitched word sits at
offset `0`. -/
theorem lambdaMemCpy_short_copy :
    lambdaMemCpy truncCtx (.sym "d") (.sym "s") 2 (.sym "src") (.sym "dst") 4 (.bvsort 32) 4 =
      stitchedLambda truncCtx (.sym "d") (.sym "s") (.sym "src") (.sym "dst") (.bvsort 32)
        4294967292 0 4 2 := by
  decide

/-! ### `MemCpy` in the array representation -/

/-- For a positive step, `k` is below the rounded-up quotient exactly when
the `k`-th word starts inside the length. -/
theorem lt_ceilDiv_iff (len w k : Nat) (hw : 0 < w) : k < (len + w - 1) / w ↔ k * w < len := by
  rw [Nat.lt_iff_add_one_le, Nat.le_div_iff_mul_le hw, Nat.add_mul, Nat.one_mul]
  omega

theorem ceilDiv_le (len w : Nat) (hw : 0 < w) : (len + w - 1) / w ≤ len := by
  by_contra h
  have h1 : len < (len + w - 1) / w := Nat.lt_of_not_le h
  have h2 := (lt_ceilDiv_iff len w len hw).mp h1
  have h3 : len ≤ len * w := Nat.le_mul_of_pos_right len hw
  omega

/-- The word loop entered at the start of the `k`-th word, with `m` words to
go and enough fuel, runs the body over these `m` words in order. -/
theorem wordLoop_words (w len : Nat) (body : Nat → Expr → Expr) (hw : 0 < w)
    (hb : (len + w - 1) / w * w < unsignedMod) (m : Nat) :
    ∀ (k fuel : Nat) (res : Expr), k + m = (len + w - 1) / w → m < fuel →
      wordLoop w len body fuel (k * w) res =
        some ((List.range' k m).foldl (fun r j => body (j * w) r) res) := by
  induction m with
  | zero =>
    intro k fuel res hk hf
    obtain ⟨f, rfl⟩ : ∃ f, fuel = f + 1 := ⟨fuel - 1, by omega⟩
    have hnot : ¬ k * w < len := by
      rw [← lt_ceilDiv_iff len w k hw]
      omega
    simp [wordLoop, hnot]
  | succ m ih =>
    intro k fuel res hk hf
    obtain ⟨f, rfl⟩ : ∃ f, fuel = f + 1 := ⟨fuel - 1, by omega⟩
    have hlt : k * w < len := by
      rw [← lt_ceilDiv_iff len w k hw]
      omega
    have hle : (k + 1) * w ≤ (len + w - 1) / w * w := Nat.mul_le_mul_right _ (by omega)
    have hmod : (k * w + w) % unsignedMod = (k + 1) * w := by
      rw [Nat.add_mul, Nat.one_mul] at hle ⊢
      exact Nat.mod_eq_of_lt (by omega)
    rw [wordLoop, if_pos hlt, hmod, ih (k + 1) f _ (by omega) (by omega)]
    simp [List.range'_succ]

theorem forWords_words (w len : Nat) (body : Nat → Expr → Expr) (res : Expr) (hw : 0 < w)
    (hb : (len + w - 1) / w * w < unsignedMod) :
    forWords w len body res =
      some ((List.range ((len + w - 1) / w)).foldl (fun r j => body (j * w) r) res) := by
  unfold forWords
  have h := wordLoop_words w len body hw hb ((len + w - 1) / w) 0 (len + 1) res (by omega)
    (Nat.lt_succ_of_le (ceilDiv_le len w hw))
  rw [Nat.zero_mul] at h
  rw [h, List.range_eq_range']

theorem storeChain_copyStores (ctx : Ctx) (dPtr sPtr srcMem memRead : Expr) (w n : Nat) :
    storeChain memRead (copyStores ctx dPtr sPtr srcMem w n) =
      (List.range n).foldl
        (fun r j => Expr.store r (ctx.mm.ptrAdd dPtr ((j * w : Nat) : Int))
          (Expr.select srcMem (ctx.mm.ptrAdd sPtr ((j * w : Nat) : Int)))) memRead := by
  simp [storeChain, copyStores, List.foldl_map]

theorem copyStores_succ (ctx : Ctx) (dPtr sPtr srcMem : Expr) (w n : Nat) :
    copyStores ctx dPtr sPtr srcMem w (n + 1) =
      copyStores ctx dPtr sPtr srcMem w n ++
        [(ctx.mm.ptrAdd dPtr ((n * w : Nat) : Int),
          Expr.select srcMem (ctx.mm.ptrAdd sPtr ((n * w : Nat) : Int)))] := by
  simp [copyStores, List.range_succ]

theorem evalArr_store (arr idx val : Expr) (ρ : Env) (a : Nat) :
    evalArr (.store arr idx val) ρ a =
      if a = evalBv idx ρ then evalBv val ρ else evalArr arr ρ a := by
  simp [evalArr, Function.update_apply]

/-- Reading the copied memory away from every written address. -/
theorem evalArr_copyStores_other (ctx : Ctx) (dPtr sPtr srcMem memRead : Expr) (w : Nat)
    (ρ : Env) (a : Nat) (n : Nat)
    (hne : ∀ k, k < n → evalBv (ctx.mm.ptrAdd dPtr ((k * w : Nat) : Int)) ρ ≠ a) :
    evalArr (storeChain memRead (copyStores ctx dPtr sPtr srcMem w n)) ρ a =
      evalArr memRead ρ a := by
  induction n with
  | zero => rfl
  | succ n ih =>
    rw [copyStores_succ, storeChain_append, evalArr_store,
      if_neg (fun h => hne n (Nat.lt_succ_self n) h.symm)]
    exact ih (fun k hk => hne k (Nat.lt_succ_of_lt hk))

/-- Reading the copied memory at a written address, the destination
addresses being pairwise distinct. -/
theorem evalArr_copyStores_at (ctx : Ctx) (dPtr sPtr srcMem memRead : Expr) (w : Nat)
    (ρ : Env) (n : Nat)
    (hdist : ∀ j, j < n → ∀ k, k < n → j ≠ k →
      evalBv (ctx.mm.ptrAdd dPtr ((j * w : Nat) : Int)) ρ ≠
        evalBv (ctx.mm.ptrAdd dPtr ((k * w : Nat) : Int)) ρ)
    (k : Nat) (hk : k < n) :
    evalArr (storeChain memRead (copyStores ctx dPtr sPtr srcMem w n)) ρ
        (evalBv (ctx.mm.ptrAdd dPtr ((k * w : Nat) : Int)) ρ) =
      evalArr srcMem ρ (evalBv (ctx.mm.ptrAdd sPtr ((k * w : Nat) : Int)) ρ) := by
  induction n with
  | zero => omega
  | succ n ih =>
    rw [copyStores_succ, storeChain_append, evalArr_store]
    by_cases hkn : k = n
    · subst hkn
      simp only [if_true, evalBv]
    · have hk' : k < n := by omega
      rw [if_neg (hdist k hk n (Nat.lt_succ_self n) hkn)]
      exact ih (fun j hj i hi hji => hdist j (Nat.lt_succ_of_lt hj) i (Nat.lt_succ_of_lt hi) hji)
        hk'

/-- C13, as amended: in the array representation's `MemCpy` with a concrete
length, when the guard holds, the word size `w` is positive and the
`unsigned` loop counter does not wrap (`⌈len / w⌉ * w < 2 ^ 32`): the result
is `memRead` extended by exactly `⌈len / w⌉` stores, the `k`-th writing
`select(srcMem, sPtr + k*w)` at `dPtr + k*w`, every value read from the
source memory as it was before the copy; for `len = 0` the result is
`memRead` itself; and when the destination addresses `dPtr + k*w` are
pairwise distinct, reading the result at `dPtr + k*w` yields the source word
at `sPtr + k*w` and reading at any other address yields `memRead`'s value. -/
theorem arrayMemCpy_stores (ctx : Ctx) (dPtr sPtr memTrsfrRead memRead ptrSort : Expr)
    (len w align : Nat) (hg : memCpyGuard ctx w align = true) (hw : 0 < w)
    (hb : (len + w - 1) / w * w < unsignedMod) :
    arrayMemCpy ctx dPtr sPtr len memTrsfrRead memRead w ptrSort align =
        some (storeChain memRead
          (copyStores ctx dPtr sPtr memTrsfrRead w ((len + w - 1) / w))) ∧
      (copyStores ctx dPtr sPtr memTrsfrRead w ((len + w - 1) / w)).length = (len + w - 1) / w ∧
      (len = 0 →
        arrayMemCpy ctx dPtr sPtr len memTrsfrRead memRead w ptrSort align = some memRead) ∧
      ∀ ρ : Env,
        (∀ j, j < (len + w - 1) / w → ∀ k, k < (len + w - 1) / w → j ≠ k →
          evalBv (ctx.mm.ptrAdd dPtr ((j * w : Nat) : Int)) ρ ≠
            evalBv (ctx.mm.ptrAdd dPtr ((k * w : Nat) : Int)) ρ) →
        (∀ k, k < (len + w - 1) / w →
          evalArr (storeChain memRead
              (copyStores ctx dPtr sPtr memTrsfrRead w ((len + w - 1) / w))) ρ
              (evalBv (ctx.mm.ptrAdd dPtr ((k * w : Nat) : Int)) ρ) =
            evalArr memTrsfrRead ρ (evalBv (ctx.mm.ptrAdd sPtr ((k * w : Nat) : Int)) ρ)) ∧
        (∀ a, (∀ k, k < (len + w - 1) / w →
            evalBv (ctx.mm.ptrAdd dPtr ((k * w : Nat) : Int)) ρ ≠ a) →
          evalArr (storeChain memRead
              (copyStores ctx dPtr sPtr memTrsfrRead w ((len + w - 1) / w))) ρ a =
            evalArr memRead ρ a) := by
  have hrun : arrayMemCpy ctx dPtr sPtr len memTrsfrRead memRead w ptrSort align =
      some (storeChain memRead
        (copyStores ctx dPtr sPtr memTrsfrRead w ((len + w - 1) / w))) := by
    unfold arrayMemCpy
    unfold memCpyGuard at hg
    rw [if_pos hg, storeChain_copyStores]
    exact forWords_words w len _ memRead hw hb
  refine ⟨hrun, by simp [copyStores], ?_, ?_⟩
  · intro h0
    rw [hrun]
    have hn : (len + w - 1) / w = 0 := by
      subst h0
      exact Nat.div_eq_of_lt (by omega)
    rw [hn]
    rfl
  · intro ρ hdist
    exact ⟨fun k hk => evalArr_copyStores_at ctx dPtr sPtr memTrsfrRead memRead w ρ _ hdist k hk,
      fun a hne => evalArr_copyStores_other ctx dPtr sPtr memTrsfrRead memRead w ρ a _ hne⟩

/-- Copying 6 bytes in 4-byte words from `s = 100` to `d = 16`: two stores,
at `16` and `20`; the result read at `20` is the source word at `104` and
read at `24` it is the destination's value. -/
theorem arrayMemCpy_stores_witness :
    arrayMemCpy plainCtx (.sym "d") (.sym "s") 6 (.sym "src") (.sym "dst") 4 (.bvsort 32) 4 =
        some (.store
          (.store (.sym "dst") (.bvadd (.sym "d") (.bvnum 0 32))
            (.select (.sym "src") (.bvadd (.sym "s") (.bvnum 0 32))))
          (.bvadd (.sym "d") (.bvnum 4 32))
          (.select (.sym "src") (.bvadd (.sym "s") (.bvnum 4 32)))) ∧
      evalArr (storeChain (.sym "dst")
        (copyStores plainCtx (.sym "d") (.sym "s") (.sym "src") 4 2)) copyEnv 20 = 1104 ∧
      evalArr (storeChain (.sym "dst")
        (copyStores plainCtx (.sym "d") (.sym "s") (.sym "src") 4 2)) copyEnv 24 = 25 := by
  have h := arrayMemCpy_stores plainCtx (.sym "d") (.sym "s") (.sym "src") (.sym "dst")
    (.bvsort 32) 6 4 4 (by decide) (by decide) (by decide)
  have hs := h.2.2.2 copyEnv (by decide)
  exact ⟨h.1, hs.1 1 (by decide), hs.2 24 (by decide)⟩

theorem wordLoop_wraps (body : Nat → Expr → Expr) (fuel : Nat) :
    ∀ (i : Nat) (res : Expr), i % 4 = 0 → i < 4294967296 →
      wordLoop 4 4294967295 body fuel i res = none := by
  induction fuel with
  | zero => intro i res _ _; rfl
  | succ f ih =>
    intro i res h4 hlt
    have hi : i < 4294967295 := by omega
    rw [wordLoop, if_pos hi]
    exact ih _ _ (by unfold unsignedMod; omega) (by unfold unsignedMod; omega)

/-- C13, as stated, fails: with 4-byte words and alignment 4 the guard holds,
but for `len = 2 ^ 32 - 1` the loop counter wraps from `2 ^ 32 - 4` to `0`
and the loop never ends, so no memory extended by `⌈len / 4⌉` stores is
returned. -/
theorem arrayMemCpy_counter_wraps :
    memCpyGuard plainCtx 4 4 = true ∧
      arrayMemCpy plainCtx (.sym "d") (.sym "s") 4294967295 (.sym "src") (.sym "dst") 4
        (.bvsort 32) 4 = none := by
  refine ⟨by decide, ?_⟩
  unfold arrayMemCpy
  rw [if_pos (by decide)]
  exact wordLoop_wraps _ _ 0 _ (by decide) (by decide)

/-! ### `coerceArrayToLambda` -/

theorem arraysort_ne_index (idxTy valTy : Expr) : Expr.arraysort idxTy valTy ≠ idxTy := by
  intro h
  have := congrArg sizeOf h
  simp at this
  omega

/-- The value of an array constant does not depend on the bound variable. -/
theorem evalArr_arrayConst (name ty : Expr) (ρ : Env) (a : Nat) :
    evalArr (.const (.fdecl name ty)) { ρ with b0 := a } = evalArr (.const (.fdecl name ty)) ρ := by
  cases name <;> simp [evalArr]

/-- C14: for every array constant `A`, `coerceArrayToLambda(A)` is the lambda
over an address of the index sort of `A` whose body is `select(A, addr)`
with the address bound: applied to any address `a` it yields the value of
`A` at `a`, which is the value of `select(A, t)` for every term `t` denoting
`a`. -/
theorem coerceArrayToLambda_is_select (name idxTy valTy : Expr) :
    coerceArrayToLambda (.const (.fdecl name (.arraysort idxTy valTy))) =
        some (.lambda (.fdecl (.sym "addr") idxTy)
          (.select (.const (.fdecl name (.arraysort idxTy valTy))) (.bvar 0 idxTy))) ∧
      ∀ L, coerceArrayToLambda (.const (.fdecl name (.arraysort idxTy valTy))) = some L →
        ∀ (ρ : Env) (a : Nat),
          evalArr L ρ a = evalArr (.const (.fdecl name (.arraysort idxTy valTy))) ρ a ∧
          ∀ t : Expr, evalBv t ρ = a →
            evalArr L ρ a =
              evalBv (.select (.const (.fdecl name (.arraysort idxTy valTy))) t) ρ := by
  have hne : ¬ (name = Expr.sym "addr" ∧ Expr.arraysort idxTy valTy = idxTy) :=
    fun h => arraysort_ne_index idxTy valTy h.2
  have hrun : coerceArrayToLambda (.const (.fdecl name (.arraysort idxTy valTy))) =
      some (.lambda (.fdecl (.sym "addr") idxTy)
        (.select (.const (.fdecl name (.arraysort idxTy valTy))) (.bvar 0 idxTy))) := by
    simp [coerceArrayToLambda, isArrayConst, absLambda, Expr.fname, Expr.mkConst, rangeTy,
      arrayIndexTy, replaceConst, hne]
  refine ⟨hrun, ?_⟩
  intro L hL ρ a
  rw [hrun] at hL
  simp only [Option.some.injEq] at hL
  subst hL
  have hval : evalArr (.lambda (.fdecl (.sym "addr") idxTy)
        (.select (.const (.fdecl name (.arraysort idxTy valTy))) (.bvar 0 idxTy))) ρ a =
      evalArr (.const (.fdecl name (.arraysort idxTy valTy))) ρ a := by
    simp only [evalArr, evalBv]
    rw [evalArr_arrayConst]
  refine ⟨hval, ?_⟩
  intro t ht
  rw [hval]
  simp only [evalBv, ht]

/-- The array constant `src` over 32-bit indices, read at `7` in an
interpretation where `src` maps `a` to `a + 1000`. -/
theorem coerceArrayToLambda_is_select_witness :
    ∃ L, coerceArrayToLambda
        (.const (.fdecl (.sym "src") (.arraysort (.bvsort 32) (.bvsort 32)))) = some L ∧
      evalArr L copyEnv 7 = 1007 := by
  have h := coerceArrayToLambda_is_select (.sym "src") (.bvsort 32) (.bvsort 32)
  refine ⟨_, h.1, ?_⟩
  rw [(h.2 _ h.1 copyEnv 7).1]
  decide

end MemRepr

end Seahorn
